import Mathlib

/-!
# Verification of the jsshell-extended shell kernel

A shallow embedding, in Lean 4, of the core of the `jsshell-extended`
repository: the command-line tokenizer (`utils/commandLine.js`), the path
resolver (`fs/pathUtils.js`), the virtual filesystem store
(`fs/virtualFileSystem.js`), the dispatcher (`jsShellHolder.js`,
`programs/runScript.js`, `programs/cd.js`, `programs/rmdir.js`) and the
tab-completion engine (`jsShellExtended.js`).

JavaScript strings are modelled as `List Char`; JavaScript `undefined`
(which can flow into a file node's `name` field via `Array.prototype.pop`
on an empty array) is modelled with `Option`.  Functions are translated
statement by statement from the JavaScript source; the success branch of
each mutating store operation corresponds to the source path that ends in
`this.save()`, and the `thrown` branch carries the in-memory state at the
moment the source `throw` executes.
-/

namespace JsShellProof

/-! ## JavaScript string helpers -/

/-- `isWhitespace` from `utils/commandLine.js`: space, tab, LF or CR. -/
def jsIsWhitespace (ch : Char) : Bool :=
  ch = ' ' || ch = '\t' || ch = '\n' || ch = '\r'

/-- Model of `String.prototype.trim`: strip leading and trailing
whitespace characters (the inputs exercised here only ever carry the four
ASCII whitespace characters the tokenizer also recognises). -/
def jsTrim (s : List Char) : List Char :=
  (s.dropWhile jsIsWhitespace).reverse.dropWhile jsIsWhitespace |>.reverse

/-! ## Command tokenizer (`utils/commandLine.js`, `tokenizeCommandLine`) -/

/-- One token produced by `tokenizeCommandLine`: the parsed value, the raw
span in the input, the quote character that started the token (if any) and
whether any quote was seen. -/
structure Token where
  value : List Char
  rawStart : Nat
  rawEnd : Nat
  quoteChar : Option Char
  hadQuotes : Bool
  deriving Repr, DecidableEq

/-- The scanner state of `tokenizeCommandLine`'s `while` loop: the
committed tokens plus the mutable locals `buf`, `tokenStart`, `quote`,
`quoteChar`, `hadQuotes`, `escaping` and the index `i`. -/
structure TokState where
  tokens : List Token
  buf : List Char
  tokenStart : Option Nat
  quote : Option Char
  quoteChar : Option Char
  hadQuotes : Bool
  escaping : Bool
  i : Nat
  deriving Repr, DecidableEq

def initTokState : TokState :=
  { tokens := []
    buf := []
    tokenStart := none
    quote := none
    quoteChar := none
    hadQuotes := false
    escaping := false
    i := 0 }

/-- `pushToken` from the source: commit the current buffer as a token
(only when a token is open) and reset the per-token locals. -/
def pushToken (st : TokState) (tokenEnd : Nat) : TokState :=
  match st.tokenStart with
  | none => st
  | some s =>
      { st with
        tokens := st.tokens ++
          [{ value := st.buf
             rawStart := s
             rawEnd := tokenEnd
             quoteChar := st.quoteChar
             hadQuotes := st.hadQuotes }]
        buf := []
        tokenStart := none
        quote := none
        quoteChar := none
        hadQuotes := false
        escaping := false }

/-- One iteration of the scanner's `while` loop, for the character at
index `st.i`.  The source's inner whitespace-skipping loop is equivalent
to handling each whitespace character in its own iteration, because after
`pushToken` the token is closed and further whitespace does nothing. -/
def tokStep (st : TokState) (ch : Char) : TokState :=
  if st.escaping then
    { st with
      tokenStart := some (st.tokenStart.getD (st.i - 1))
      buf := st.buf ++ [ch]
      escaping := false
      i := st.i + 1 }
  else if ch = '\\' then
    { st with
      tokenStart := some (st.tokenStart.getD st.i)
      escaping := true
      i := st.i + 1 }
  else
    match st.quote with
    | some q =>
        if ch = q then
          { st with hadQuotes := true, quote := none, i := st.i + 1 }
        else
          { st with
            tokenStart := some (st.tokenStart.getD st.i)
            buf := st.buf ++ [ch]
            i := st.i + 1 }
    | none =>
        if ch = '"' || ch = '\'' then
          { st with
            tokenStart := some (st.tokenStart.getD st.i)
            quote := some ch
            quoteChar := some ch
            hadQuotes := true
            i := st.i + 1 }
        else if jsIsWhitespace ch then
          { pushToken st st.i with i := st.i + 1 }
        else
          { st with
            tokenStart := some (st.tokenStart.getD st.i)
            buf := st.buf ++ [ch]
            i := st.i + 1 }

/-- The result record of `tokenizeCommandLine`. -/
structure TokResult where
  tokens : List Token
  endsWithSpace : Bool
  unterminatedQuote : Bool
  deriving Repr, DecidableEq

/-- The code after the `while` loop: a trailing backslash becomes a
literal backslash, then an open token is committed at `src.length`. -/
def tokFinalize (src : List Char) (st : TokState) : TokState :=
  let st := if st.escaping then { st with buf := st.buf ++ ['\\'], escaping := false } else st
  match st.tokenStart with
  | none => st
  | some _ => pushToken st src.length

/-- `tokenizeCommandLine` from `utils/commandLine.js`. -/
def tokenizeCommandLine (src : List Char) : TokResult :=
  let st := tokFinalize src (src.foldl tokStep initTokState)
  { tokens := st.tokens
    endsWithSpace := decide (src.length > 0) && jsIsWhitespace (src.getLastD ' ')
    unterminatedQuote := st.quote.isSome }

/-- `parseCommandLine` from `utils/commandLine.js`: first token value (or
the empty string) and the remaining token values. -/
structure ParsedLine where
  command : List Char
  args : List (List Char)
  deriving Repr, DecidableEq

def parseCommandLine (input : List Char) : ParsedLine :=
  let parts := (tokenizeCommandLine input).tokens.map Token.value
  { command := parts.headD [], args := parts.tail }

/-- `quoteArgIfNeeded` from `utils/commandLine.js`. -/
def quoteArgIfNeeded (value : List Char) (preferredQuote : Char) : List Char :=
  let needs := value.any fun c => jsIsWhitespace c || c = '"' || c = '\'' || c = '\\'
  if !needs then value
  else
    let q : Char := if preferredQuote = '\'' then '\'' else '"'
    let escaped := value.flatMap fun c =>
      if c = '\\' then ['\\', '\\'] else if c = q then ['\\', c] else [c]
    q :: escaped ++ [q]

/-! ### The spec's reading of "ends inside an open quoted span"

`quoteSpanStep` is written from the spec's words (backslash escapes the
next character in all contexts; `'` and `"` open a literal span closed
only by the same character), independently of the token-building logic. -/

def quoteSpanStep : Bool × Option Char → Char → Bool × Option Char
  | (true, q), _ => (false, q)
  | (false, q), '\\' => (true, q)
  | (false, some q), ch => if ch = q then (false, none) else (false, some q)
  | (false, none), ch =>
      if ch = '"' || ch = '\'' then (false, some ch) else (false, none)

/-- A line ends inside an open quoted span iff the minimal quote scanner
finishes with a quote character still open. -/
def endsInOpenQuote (s : List Char) : Bool :=
  (s.foldl quoteSpanStep (false, none)).2.isSome

/-- The buffer the scanner has accumulated at end of input, after the
trailing-backslash fix-up. -/
def finalBuf (s : List Char) : List Char :=
  let st := s.foldl tokStep initTokState
  if st.escaping then st.buf ++ ['\\'] else st.buf

/-! ## Path resolver (`fs/pathUtils.js`) -/

/-- Model of `String.prototype.split` with a one-character separator:
`""` splits to `[""]`, separators at the ends produce empty pieces. -/
def jsSplit (sep : Char) : List Char → List (List Char)
  | [] => [[]]
  | c :: rest =>
      if c = sep then [] :: jsSplit sep rest
      else
        match jsSplit sep rest with
        | [] => [[c]]
        | piece :: pieces => (c :: piece) :: pieces

/-- Model of `Array.prototype.join('/')`. -/
def joinSlash : List (List Char) → List Char
  | [] => []
  | [p] => p
  | p :: ps => p ++ '/' :: joinSlash ps

/-- `normalizePathParts` from `fs/pathUtils.js`: resolve a path string
against `cwdParts`, handling `.`, `..` and absolute vs relative paths. -/
def normalizePathParts (cwdParts : List (List Char)) (path : List Char) :
    List (List Char) :=
  if path = [] || path = ['.'] then cwdParts
  else
    let isAbsolute := path.headD ' ' = '/'
    let rawParts := (jsSplit '/' path).filter fun p => p ≠ [] && p ≠ ['.']
    let base := if isAbsolute then [] else cwdParts
    rawParts.foldl
      (fun result part =>
        if part = ['.', '.'] then result.dropLast else result ++ [part])
      base

/-- `normalizePathFromCwd` from `fs/pathUtils.js`: normalize against a cwd
given as a path string and return a canonical absolute path string. -/
def normalizePathFromCwd (cwdPath path : List Char) : List Char :=
  let cwdParts :=
    if cwdPath = [] || cwdPath = ['/'] then []
    else (jsSplit '/' cwdPath).filter fun p => p ≠ []
  '/' :: joinSlash (normalizePathParts cwdParts path)

/-! ## Virtual filesystem store (`fs/virtualFileSystem.js`)

A file's `name` is an `Option`: `VirtualFileSystem.writeFile` computes the
final name with `parts.pop()`, which yields JavaScript `undefined` when
the resolved path has no segments (for example `writeFile('/', ...)`),
and that `undefined` is stored in the new node's `name` field. -/

structure VFile where
  name : Option (List Char)
  content : List Char
  deriving Repr, DecidableEq

inductive VFolder where
  | node (name : List Char) (folders : List VFolder) (files : List VFile)
  deriving Repr

def VFolder.name : VFolder → List Char
  | .node n _ _ => n

def VFolder.folders : VFolder → List VFolder
  | .node _ fs _ => fs

def VFolder.files : VFolder → List VFile
  | .node _ _ fl => fl

lemma VFolder.name_node (n : List Char) (fs : List VFolder) (fl : List VFile) :
    (VFolder.node n fs fl).name = n := rfl

lemma VFolder.folders_node (n : List Char) (fs : List VFolder) (fl : List VFile) :
    (VFolder.node n fs fl).folders = fs := rfl

lemma VFolder.files_node (n : List Char) (fs : List VFolder) (fl : List VFile) :
    (VFolder.node n fs fl).files = fl := rfl

/-- `VfsState`: the tree root plus the cwd as path parts. -/
structure VfsState where
  root : VFolder
  cwdParts : List (List Char)
  deriving Repr

/-- `_createDefaultState` from `fs/virtualFileSystem.js`: an empty root
(whose own display name is `/`) and a root cwd. -/
def defaultVfsState : VfsState :=
  { root := .node ['/'] [] [], cwdParts := [] }

/-- `_resolveFolder`: walk the parts, taking at each level the first child
folder whose name matchesL (the source uses `Array.prototype.find`). -/
def resolveFolder (root : VFolder) : List (List Char) → Option VFolder
  | [] => some root
  | p :: ps =>
      match root.folders.find? (fun f => f.name = p) with
      | none => none
      | some next => resolveFolder next ps

/-- Replace the first element satisfying `p` by its image under `f`. -/
def updateFirst (p : VFolder → Bool) (f : VFolder → VFolder) :
    List VFolder → List VFolder
  | [] => []
  | x :: xs => if p x then f x :: xs else x :: updateFirst p f xs

/-- Apply `f` to the node reached by `parts` (first-match at each level),
leaving the tree unchanged when the path does not resolve.  This is the
purely functional rendering of the source's in-place mutation through the
object reference returned by `_resolveFolder`. -/
def updateFolderAt (f : VFolder → VFolder) : List (List Char) → VFolder → VFolder
  | [], root => f root
  | p :: ps, .node n fs fl =>
      .node n (updateFirst (fun c => c.name = p) (updateFolderAt f ps) fs) fl

/-- The error taxonomy of the store operations, by the messages thrown in
`fs/virtualFileSystem.js`.  `typeError` models the TypeError JavaScript
raises when `getCwdFolder()` returns `null` and the operation dereferences
it. -/
inductive VfsErr where
  | notFound
  | alreadyExists
  | notEmpty
  | invalidName
  | typeError
  deriving Repr, DecidableEq

/-- Result of a mutating store operation.  `saved s` means the mutation
was applied and `this.save()` ran with state `s`; `thrown e s` means an
exception left the in-memory state as `s` (every `throw` in the source
happens before any mutation, which the translation makes explicit by
carrying the state at the throw site) and `save()` did not run. -/
inductive MutResult where
  | saved (s : VfsState)
  | thrown (e : VfsErr) (s : VfsState)
  deriving Repr

def MutResult.state : MutResult → VfsState
  | .saved s => s
  | .thrown _ s => s

/-- `changeDirectory` from `fs/virtualFileSystem.js`. -/
def changeDirectory (path : List Char) (s : VfsState) : MutResult :=
  match resolveFolder s.root (normalizePathParts s.cwdParts path) with
  | none => .thrown .notFound s
  | some _ => .saved { s with cwdParts := normalizePathParts s.cwdParts path }

/-- `mkdir` from `fs/virtualFileSystem.js`: the name must be non-empty and
free of `\` and `/`; fails when a child folder or file of that name
already exists in the cwd. -/
def mkdir (name : List Char) (s : VfsState) : MutResult :=
  if name = [] || name.any (fun c => c = '\\' || c = '/') then
    .thrown .invalidName s
  else
    match resolveFolder s.root s.cwdParts with
    | none => .thrown .typeError s
    | some cwd =>
        if cwd.folders.any (fun f => f.name = name) ||
            cwd.files.any (fun f => f.name = some name) then
          .thrown .alreadyExists s
        else
          .saved { s with
            root := updateFolderAt
              (fun g => .node g.name (g.folders ++ [.node name [] []]) g.files)
              s.cwdParts s.root }

/-- `list` from `fs/virtualFileSystem.js`: folder names and file names of
the resolved folder (`'.'` lists the cwd). -/
def list (path : List Char) (s : VfsState) :
    Except VfsErr (List (List Char) × List (Option (List Char))) :=
  match (if path = ['.'] then resolveFolder s.root s.cwdParts
      else resolveFolder s.root (normalizePathParts s.cwdParts path)) with
  | none => .error .notFound
  | some f => .ok (f.folders.map VFolder.name, f.files.map VFile.name)

/-- `rmdir` from `fs/virtualFileSystem.js`: remove the first child folder
of the cwd with the given name, provided it is empty. -/
def rmdir (name : List Char) (s : VfsState) : MutResult :=
  match resolveFolder s.root s.cwdParts with
  | none => .thrown .typeError s
  | some cwd =>
      match cwd.folders.find? (fun f => f.name = name) with
      | none => .thrown .notFound s
      | some folder =>
          if !folder.folders.isEmpty || !folder.files.isEmpty then
            .thrown .notEmpty s
          else
            .saved { s with
              root := updateFolderAt
                (fun g => .node g.name
                  (g.folders.eraseP (fun f => f.name = name)) g.files)
                s.cwdParts s.root }

/-- Write or overwrite a file's content in a folder's `files` list: the
first file whose name matchesL is overwritten in place, otherwise a new
node is appended (`writeFile`'s two branches). -/
def putFile (name : Option (List Char)) (content : List Char) :
    List VFile → List VFile
  | [] => [{ name := name, content := content }]
  | f :: fs =>
      if f.name = name then { f with content := content } :: fs
      else f :: putFile name content fs

/-- `writeFile` from `fs/virtualFileSystem.js`, with `_ensureFileParent`
inlined: resolve, `pop()` the final segment (which is `undefined` when no
segments remain), require the parent folder, then create or overwrite. -/
def writeFile (path content : List Char) (s : VfsState) : MutResult :=
  match resolveFolder s.root (normalizePathParts s.cwdParts path).dropLast with
  | none => .thrown .notFound s
  | some _ =>
      .saved { s with
        root := updateFolderAt
          (fun g => .node g.name g.folders
            (putFile (normalizePathParts s.cwdParts path).getLast? content g.files))
          (normalizePathParts s.cwdParts path).dropLast s.root }

/-- `_getFile` followed by the `readFile` check: resolve the parent, then
find the first file with the popped name.  No state is touched. -/
def readFile (path : List Char) (s : VfsState) : Except VfsErr (List Char) :=
  match resolveFolder s.root (normalizePathParts s.cwdParts path).dropLast with
  | none => .error .notFound
  | some parent =>
      match parent.files.find?
          (fun f => f.name = (normalizePathParts s.cwdParts path).getLast?) with
      | none => .error .notFound
      | some file => .ok file.content

/-- `unlink` from `fs/virtualFileSystem.js`: remove the first file with
the popped name from the resolved parent. -/
def unlink (path : List Char) (s : VfsState) : MutResult :=
  match resolveFolder s.root (normalizePathParts s.cwdParts path).dropLast with
  | none => .thrown .notFound s
  | some parent =>
      if parent.files.all
          (fun f => f.name ≠ (normalizePathParts s.cwdParts path).getLast?) then
        .thrown .notFound s
      else
        .saved { s with
          root := updateFolderAt
            (fun g => .node g.name g.folders
              (g.files.eraseP
                (fun f => f.name = (normalizePathParts s.cwdParts path).getLast?)))
            (normalizePathParts s.cwdParts path).dropLast s.root }

/-- `getCwdPath`: `'/' + cwdParts.join('/')`. -/
def getCwdPath (s : VfsState) : List Char :=
  '/' :: joinSlash s.cwdParts

/-! ## The tree invariant -/

/-- A valid entry name: non-empty and free of the path separator `/`. -/
def validNameB (n : List Char) : Bool :=
  !n.isEmpty && !n.contains '/'

/-- File-name validity as the spec states it: the node must carry an
actual non-empty, separator-free name. -/
def fileNameStrict : Option (List Char) → Bool
  | none => false
  | some n => validNameB n

/-- File-name validity as the code maintains it: an absent name (the
`undefined` produced by `parts.pop()` on an empty array) is tolerated,
but a present name is non-empty and separator-free. -/
def fileNameLax : Option (List Char) → Bool
  | none => true
  | some n => validNameB n

/-- The per-folder tree invariant, parameterised by the file-name
condition: child folder names are unique, file names are unique, folder
names are valid, and the invariant holds recursively. -/
def goodWith (fileOk : Option (List Char) → Bool) : VFolder → Bool
  | .node _ fs fl =>
      decide ((fs.map VFolder.name).Nodup) &&
      decide ((fl.map VFile.name).Nodup) &&
      fs.all (fun c => validNameB c.name) &&
      fl.all (fun f => fileOk f.name) &&
      fs.attach.all (fun c => goodWith fileOk c.1)
  decreasing_by
    have := List.sizeOf_lt_of_mem c.2
    simp at *
    omega

/-- The invariant exactly as the claim states it. -/
def strictGood (root : VFolder) : Bool := goodWith fileNameStrict root

/-- The invariant the code actually maintains (absent file names
tolerated). -/
def laxGood (root : VFolder) : Bool := goodWith fileNameLax root

/-- The full state invariant: the tree invariant plus validity of the cwd
segments (which the store only ever sets to segments that resolved
against a tree with valid names). -/
def goodState (s : VfsState) : Bool :=
  laxGood s.root && s.cwdParts.all validNameB

/-! ## Store operations bundled, and persistence -/

/-- The six public store operations of `VirtualFileSystem`. -/
inductive VfsOp where
  | cd (path : List Char)
  | mkdirOp (name : List Char)
  | rmdirOp (name : List Char)
  | write (path content : List Char)
  | read (path : List Char)
  | unlinkOp (path : List Char)
  deriving Repr

/-- Run one operation on the in-memory state.  `readFile` never mutates
nor saves; for it, `.saved s` merely marks success with the untouched
state (persistence for `read` is handled separately in `runPersisted`). -/
def applyOp : VfsOp → VfsState → MutResult
  | .cd p, s => changeDirectory p s
  | .mkdirOp n, s => mkdir n s
  | .rmdirOp n, s => rmdir n s
  | .write p c, s => writeFile p c s
  | .read p, s =>
      match readFile p s with
      | .ok _ => .saved s
      | .error e => .thrown e s
  | .unlinkOp p, s => unlink p s

/-- Run a sequence of operations from a starting state, continuing after
errors with the state the exception left behind (the shell catches store
errors and keeps going). -/
def runOps (ops : List VfsOp) (s : VfsState) : VfsState :=
  ops.foldl (fun s op => (applyOp op s).state) s

/-- The in-memory state paired with the persisted (`localStorage`) copy;
`save()` replaces the persisted copy with the current state. -/
structure Persisted where
  mem : VfsState
  disk : VfsState

/-- Run one operation against the persisted store: on success the source
ends with `this.save()`; when a throw escapes, `save()` was never
reached. -/
def runPersisted (op : VfsOp) (p : Persisted) : Persisted × Option VfsErr :=
  match op with
  | .read path =>
      match readFile path p.mem with
      | .ok _ => (p, none)
      | .error e => (p, some e)
  | op =>
      match applyOp op p.mem with
      | .saved s => ({ mem := s, disk := s }, none)
      | .thrown e s => ({ mem := s, disk := p.disk }, some e)

/-! ## Alias expansion (`jsShellHolder.js`, `expandAliasesOnce` /
`expandAliases`) -/

/-- The alias table of `env.ALIAS`, as an association list. -/
def AliasTable : Type := List (List Char × List Char)

def aliasLookup (al : AliasTable) (k : List Char) : Option (List Char) :=
  (List.find? (fun p => p.1 = k) al).map Prod.snd

/-- `expandAliasesOnce`: `none` models the early `return {command, args}`
(no alias, or an alias whose expansion trims to nothing), which the
caller's loop detects through reference equality of `args`. -/
def expandAliasesOnce (al : AliasTable) (command : List Char)
    (args : List (List Char)) : Option (List Char × List (List Char)) :=
  match aliasLookup al command with
  | none => none
  | some target =>
      let trimmed := jsTrim target
      if trimmed = [] then none
      else
        let parsed := parseCommandLine trimmed
        let nextCommand := if parsed.command = [] then command else parsed.command
        some (nextCommand, parsed.args ++ args)

/-- The `for` loop of `expandAliases`, with the loop counter as fuel and
the `seen` set as a list. -/
def expandAliasesLoop (al : AliasTable) :
    Nat → List (List Char) → List Char → List (List Char) →
    List Char × List (List Char)
  | 0, _, c, a => (c, a)
  | fuel + 1, seen, c, a =>
      if c ∈ seen then (c, a)
      else
        match expandAliasesOnce al c a with
        | none => (c, a)
        | some (c', a') => expandAliasesLoop al fuel (c :: seen) c' a'

/-- `expandAliases` with its default `maxDepth = 5`. -/
def expandAliases (al : AliasTable) (command : List Char)
    (args : List (List Char)) : List Char × List (List Char) :=
  expandAliasesLoop al 5 [] command args

/-- One silent expansion step: apply `expandAliasesOnce` when it fires,
otherwise keep the pair.  `expandAliases` computes a bounded iterate of
this step. -/
def aliasStep (al : AliasTable) (p : List Char × List (List Char)) :
    List Char × List (List Char) :=
  (expandAliasesOnce al p.1 p.2).getD p

/-! ## PATH resolution (`jsShellHolder.js`, `resolveScriptOnPath`) -/

/-- A JavaScript value stored in `env.PATH`: a string, or anything else
(skipped by the `typeof dir !== 'string'` guard). -/
inductive JsEntry where
  | jstr (s : List Char)
  | other
  deriving Repr, DecidableEq

/-- The environment record relevant to dispatch. -/
structure Env where
  PATH : List JsEntry
  ALIAS : AliasTable

/-- `joinVfsPath`: strip trailing slashes from the directory and leading
slashes from the file, then join with one slash. -/
def joinVfsPath (dir file : List Char) : List Char :=
  (dir.reverse.dropWhile (fun c => c = '/')).reverse ++
    '/' :: file.dropWhile (fun c => c = '/')

/-- The `for (const dir of dirs)` loop of `resolveScriptOnPath`:
non-string entries, entries not starting with `/`, and directories whose
listing throws are all skipped silently. -/
def searchPath (s : VfsState) (fileName : List Char) :
    List JsEntry → Option (List Char)
  | [] => none
  | .other :: rest => searchPath s fileName rest
  | .jstr d :: rest =>
      if d.headD ' ' ≠ '/' then searchPath s fileName rest
      else
        match list d s with
        | .error _ => searchPath s fileName rest
        | .ok (_, files) =>
            if files.contains (some fileName) then some (joinVfsPath d fileName)
            else searchPath s fileName rest

/-- `resolveScriptOnPath` from `jsShellHolder.js`. -/
def resolveScriptOnPath (s : VfsState) (env : Env) (commandName : List Char) :
    Option (List Char) :=
  if commandName = [] then none
  else if commandName.contains '/' then none
  else
    let fileName :=
      if ".js".toList.isSuffixOf commandName then commandName
      else commandName ++ ".js".toList
    searchPath s fileName env.PATH

/-! ## The lenient dispatch pipeline of `mainLoop` -/

/-- Where one interactive input line ends up, following `mainLoop`'s
resolution order: `.jsh` script, registered module (built-in handler or
explicit `./file.js` execution), PATH-resolved script (carrying the
token the script will see as its `command` argument), or not found. -/
inductive Dispatch where
  | blank
  | jshScript (invokedAs : List Char)
  | builtin (cmd : List Char) (args : List (List Char))
  | explicitScript (cmd : List Char) (args : List (List Char))
  | pathScript (scriptPath : List Char) (args : List (List Char))
      (invokedAs : List Char)
  | notFound (cmd : List Char)
  deriving Repr, DecidableEq

/-- Whether the registered-modules loop handles a command: each built-in
handler self-reports by comparing `command.toLowerCase()` against its
name, and `executeScriptFile` claims commands of the form `./….js`. -/
def handledByModules (builtins : List (List Char)) (command : List Char) : Bool :=
  builtins.contains (command.map Char.toLower) ||
    ("./".toList.isPrefixOf command && ".js".toList.isSuffixOf command)

/-- The resolution order of `mainLoop` once the (post-alias) command and
arguments are fixed: the `./….jsh` rule, the registered modules (built-in
handlers and the `./….js` script rule), then the PATH fallback.  The
PATH-resolved script is executed via `executeVfsScript(shell,
scriptPath, args, command)`, i.e. with the post-alias-expansion
`command` as its self-reported invocation name. -/
def mainLoopDispatch (builtins : List (List Char)) (env : Env) (s : VfsState)
    (command : List Char) (args : List (List Char)) : Dispatch :=
  if "./".toList.isPrefixOf command && ".jsh".toList.isSuffixOf command then
    .jshScript command
  else if builtins.contains (command.map Char.toLower) then
    .builtin command args
  else if "./".toList.isPrefixOf command && ".js".toList.isSuffixOf command then
    .explicitScript command args
  else if command = [] then .blank
  else
    match resolveScriptOnPath s env command with
    | some scriptPath => .pathScript scriptPath args command
    | none => .notFound command

/-- The lenient, interactive dispatch of one input line: trim, tokenize,
expand aliases, then resolve. -/
def mainLoopResolve (builtins : List (List Char)) (env : Env) (s : VfsState)
    (input : List Char) : Dispatch :=
  if jsTrim input = [] then .blank
  else
    mainLoopDispatch builtins env s
      (expandAliases env.ALIAS (parseCommandLine (jsTrim input)).command
        (parseCommandLine (jsTrim input)).args).1
      (expandAliases env.ALIAS (parseCommandLine (jsTrim input)).command
        (parseCommandLine (jsTrim input)).args).2

/-! ## Strict dispatch and `.jsh` command scripts (`jsShellHolder.js`,
`dispatchStrict` / `runJshScript`) -/

/-- What a command-module handler returns (`undefined` is modelled by the
caller receiving `none`): the self-reported `handled` flag, the
`shouldContinue` flag, and the optional boolean `ok`. -/
structure ModResult where
  handled : Bool
  shouldContinue : Bool
  ok : Option Bool
  deriving Repr, DecidableEq

/-- A command-module handler: it may read and mutate the store, and
returns an optional result record. -/
def HandlerFn : Type :=
  List Char → List (List Char) → VfsState → VfsState × Option ModResult

/-- The normalized result of `dispatchRegisteredModules`. -/
structure DispatchRes where
  handled : Bool
  shouldContinue : Bool
  ok : Bool
  deriving Repr, DecidableEq

/-- `dispatchRegisteredModules`: try each registered handler in order;
the first that self-reports `handled` wins, with `shouldContinue`
defaulting to `true` unless explicitly `false` and `ok` defaulting to
`true` when not a boolean. -/
def dispatchRegisteredModules (modules : List HandlerFn) (command : List Char)
    (args : List (List Char)) (s : VfsState) : VfsState × DispatchRes :=
  match modules with
  | [] => (s, { handled := false, shouldContinue := true, ok := true })
  | h :: rest =>
      let out := h command args s
      match out.2 with
      | none => dispatchRegisteredModules rest command args out.1
      | some r =>
          if r.handled then
            (out.1,
             { handled := true
               shouldContinue := r.shouldContinue
               ok := r.ok.getD true })
          else dispatchRegisteredModules rest command args out.1

/-- The result record of `dispatchStrict`. -/
structure StrictRes where
  ok : Bool
  handled : Bool
  shouldContinue : Bool
  deriving Repr, DecidableEq

/-- `dispatchStrict` from `jsShellHolder.js`: used by `.jsh` scripts; no
alias expansion and no PATH fallback, an unhandled command or a handler
reporting `ok === false` yields `ok = false`. -/
def dispatchStrict (modules : List HandlerFn) (command : List Char)
    (args : List (List Char)) (s : VfsState) : VfsState × StrictRes :=
  if command = [] then
    (s, { ok := true, handled := true, shouldContinue := true })
  else
    let out := dispatchRegisteredModules modules command args s
    let r := out.2
    if !r.handled then
      (out.1, { ok := false, handled := false, shouldContinue := true })
    else if r.ok = false then
      (out.1, { ok := false, handled := true, shouldContinue := true })
    else
      (out.1, { ok := true, handled := true, shouldContinue := r.shouldContinue })

/-- `parseSimpleCommandLine`: trim, treat `#`/`//` lines as comments. -/
def parseSimpleCommandLine (line : List Char) : ParsedLine :=
  let trimmed := jsTrim line
  if trimmed = [] then { command := [], args := [] }
  else if ['#'].isPrefixOf trimmed || "//".toList.isPrefixOf trimmed then
    { command := [], args := [] }
  else parseCommandLine trimmed

/-- `String.prototype.split(/\r?\n/)`: split on newlines, where a `\r`
immediately before a `\n` belongs to the separator. -/
def splitJsLines (content : List Char) : List (List Char) :=
  go (jsSplit '\n' content)
where
  stripCR (l : List Char) : List Char :=
    if l.getLast? = some '\r' then l.dropLast else l
  go : List (List Char) → List (List Char)
    | [] => []
    | [x] => [x]
    | x :: xs => stripCR x :: go xs

/-- Outcome of running a `.jsh` command script. -/
inductive JshOutcome where
  | completed (s : VfsState)
  | aborted (lineNo : Nat) (lineText : List Char) (s : VfsState)
  | exited (s : VfsState)
  deriving Repr

def JshOutcome.state : JshOutcome → VfsState
  | .completed s => s
  | .aborted _ _ s => s
  | .exited s => s

/-- The line loop of `runJshScript`: lines are dispatched strictly and in
order; the first line whose strict dispatch reports `ok = false` aborts
with its 1-based line number and raw text, and a line with
`shouldContinue = false` ends the session. -/
def runJshLines (modules : List HandlerFn) :
    List (List Char) → Nat → VfsState → JshOutcome
  | [], _, s => .completed s
  | line :: rest, i, s =>
      let parsed := parseSimpleCommandLine line
      if parsed.command = [] then runJshLines modules rest (i + 1) s
      else
        let out := dispatchStrict modules parsed.command parsed.args s
        if !out.2.ok then .aborted (i + 1) line out.1
        else if !out.2.shouldContinue then .exited out.1
        else runJshLines modules rest (i + 1) out.1

/-- Run a script's content (already read from the store). -/
def runJshContent (modules : List HandlerFn) (content : List Char)
    (s : VfsState) : JshOutcome :=
  runJshLines modules (splitJsLines content) 0 s

/-- `runJshScript` from `jsShellHolder.js`: read `./name.jsh` relative to
the cwd and run its lines; a read failure is reported but the shell
continues. -/
def runJshScript (modules : List HandlerFn) (invokedAs : List Char)
    (s : VfsState) : JshOutcome :=
  match readFile (normalizePathFromCwd (getCwdPath s) (invokedAs.drop 2)) s with
  | .error _ => .completed s
  | .ok content => runJshContent modules content s

/-! ## Command handlers used by the `.jsh` scenario -/

/-- `executeCdCommand` from `programs/cd.js`: handle `cd` (matched
case-insensitively), defaulting a missing or empty first argument to
`/`; a store error yields `ok = false`. -/
def executeCdCommand : HandlerFn := fun command args s =>
  if command.map Char.toLower ≠ "cd".toList then
    (s, some { handled := false, shouldContinue := true, ok := none })
  else
    let arg0 := args.headD []
    let target := if arg0 = [] then ['/'] else arg0
    match changeDirectory target s with
    | .saved s' => (s', some { handled := true, shouldContinue := true, ok := some true })
    | .thrown _ s' => (s', some { handled := true, shouldContinue := true, ok := some false })

/-- Modelled from the spec: `programs/mkdir.js` is not under `src/` (only
its registration in `jsShellHolder.js` and its help page are).  Per the
spec, the `mkdir` built-in handles its command name case-insensitively,
invokes the store's `mkdir` for each operand, reports `ok = false` when
an operand is missing or a store call throws, and `ok = true` otherwise
(the sibling `programs/rmdir.js`, which is in `src/`, follows exactly
this shape). -/
def executeMkdirCommand : HandlerFn := fun command args s =>
  if command.map Char.toLower ≠ "mkdir".toList then
    (s, some { handled := false, shouldContinue := true, ok := none })
  else if args.isEmpty then
    (s, some { handled := true, shouldContinue := true, ok := some false })
  else
    let out := args.foldl
      (fun (acc : VfsState × Bool) name =>
        match mkdir name acc.1 with
        | .saved s' => (s', acc.2)
        | .thrown _ s' => (s', true))
      (s, false)
    (out.1, some { handled := true, shouldContinue := true, ok := some !out.2 })

/-! ## Tab-completion engine (`jsShellExtended.js`) -/

/-- Code-point lexicographic order on strings, the model of the sort
comparator `(a, b) => a.localeCompare(b)` (the command names completed
here are plain lowercase ASCII, on which locale collation and code-point
order agree). -/
def lexLe : List Char → List Char → Bool
  | [], _ => true
  | _ :: _, [] => false
  | x :: xs, y :: ys => if x = y then lexLe xs ys else decide (x < y)

/-- One candidate of a path-completion session. -/
structure PathItem where
  name : List Char
  isFolder : Bool
  deriving Repr, DecidableEq

/-- A live completion session (`state.completionSession` with
`active: true`): the candidate list, the active index, and the input
value last proposed to the terminal. -/
inductive Session where
  | command (items : List (List Char)) (index : Nat) (lastInput : List Char)
  | path (items : List PathItem) (index : Nat)
      (beforeWord afterWord dirPart : List Char) (quoteChar : Option Char)
      (lastInput : List Char)
  deriving Repr, DecidableEq

/-- Stable insertion of one string into a sorted list of strings. -/
def insertSorted (x : List Char) : List (List Char) → List (List Char)
  | [] => [x]
  | y :: ys => if lexLe x y then x :: y :: ys else y :: insertSorted x ys

/-- The model of `Array.prototype.sort((a, b) => a.localeCompare(b))`:
a stable comparison sort, realised as insertion sort over `lexLe`. -/
def jsSortStrings (l : List (List Char)) : List (List Char) :=
  l.foldr insertSorted []

/-- `_startCommandCompletionSession`: merge the registered commands with
the PATH-discovered script names (first occurrence kept, then sorted),
filter by the current word as prefix; one match commits it with a
trailing space, several open a session proposing the first, none leaves
the input unchanged. -/
def startCommandCompletionSession (commands pathScriptCommands : List (List Char))
    (currentWord : List Char) : Option Session × List Char :=
  if (jsSortStrings ((commands ++ pathScriptCommands).eraseDups) |>.filter
      fun cmd => currentWord.isPrefixOf cmd).length = 1 then
    (none, (jsSortStrings ((commands ++ pathScriptCommands).eraseDups) |>.filter
      fun cmd => currentWord.isPrefixOf cmd).headD [] ++ [' '])
  else if (jsSortStrings ((commands ++ pathScriptCommands).eraseDups) |>.filter
      fun cmd => currentWord.isPrefixOf cmd).length > 1 then
    (some (.command
        (jsSortStrings ((commands ++ pathScriptCommands).eraseDups) |>.filter
          fun cmd => currentWord.isPrefixOf cmd) 0
        ((jsSortStrings ((commands ++ pathScriptCommands).eraseDups) |>.filter
          fun cmd => currentWord.isPrefixOf cmd).headD [] ++ [' '])),
      (jsSortStrings ((commands ++ pathScriptCommands).eraseDups) |>.filter
        fun cmd => currentWord.isPrefixOf cmd).headD [] ++ [' '])
  else (none, currentWord)

/-- `(session.index + delta + len) % len` — the circular index advance,
with `delta = -1` on a modified (backward) request. -/
def cycleIdx (index : Nat) (back : Bool) (len : Nat) : Nat :=
  (((index : Int) + (if back then -1 else 1) + len) % len).toNat

/-- The `session.type === 'command'` arm of `_cycleCompletionSession`. -/
def cycleCommandSession (items : List (List Char)) (index : Nat)
    (lastInput currentInput : List Char) (back : Bool) :
    Option (Session × List Char) :=
  if items.length ≤ 1 || currentInput ≠ lastInput then none
  else
    some (.command items (cycleIdx index back items.length)
        (items.getD (cycleIdx index back items.length) [] ++ [' ']),
      items.getD (cycleIdx index back items.length) [] ++ [' '])

/-- The display value of a path candidate: its name, with a trailing
slash for folders. -/
def pathItemDisplay (m : PathItem) : List Char :=
  m.name ++ (if m.isFolder then ['/'] else [])

/-- The `session.type === 'path'` arm of `_cycleCompletionSession`. -/
def cyclePathSession (items : List PathItem) (index : Nat)
    (beforeWord afterWord dirPart : List Char) (q : Option Char)
    (lastInput currentInput : List Char) (back : Bool) :
    Option (Session × List Char) :=
  if items.length ≤ 1 || currentInput ≠ lastInput then none
  else
    some (.path items (cycleIdx index back items.length) beforeWord
        afterWord dirPart q
        (beforeWord ++ quoteArgIfNeeded (dirPart ++ pathItemDisplay
          (items.getD (cycleIdx index back items.length)
            { name := [], isFolder := false })) (q.getD '"') ++ afterWord),
      beforeWord ++ quoteArgIfNeeded (dirPart ++ pathItemDisplay
        (items.getD (cycleIdx index back items.length)
          { name := [], isFolder := false })) (q.getD '"') ++ afterWord)

/-- `_cycleCompletionSession`: only fires when a session exists with more
than one candidate and the current input equals the last proposed value;
the index advances circularly (backward on a modified request) and the
proposal for the new index becomes the new input. -/
def cycleCompletionSession (sess : Option Session) (currentInput : List Char)
    (back : Bool) : Option (Session × List Char) :=
  match sess with
  | none => none
  | some (.command items index lastInput) =>
      cycleCommandSession items index lastInput currentInput back
  | some (.path items index beforeWord afterWord dirPart q lastInput) =>
      cyclePathSession items index beforeWord afterWord dirPart q lastInput
        currentInput back

/-- The Tab branch taken for a command-position word (at most one token,
not starting with `./`): first try to cycle the existing session; when
that declines, recompute the current word from the tokenized input and
start afresh — so a Tab whose input does not match the previous proposal
replaces the session instead of advancing it. -/
def tabCommandPosition (commands pathScriptCommands : List (List Char))
    (sess : Option Session) (currentInput : List Char) (back : Bool) :
    Option Session × List Char :=
  match cycleCompletionSession sess currentInput back with
  | some (s', out) => (some s', out)
  | none =>
      let tokenized := tokenizeCommandLine currentInput
      let words0 := tokenized.tokens.map Token.value
      let words := if tokenized.endsWithSpace then words0 ++ [[]] else words0
      let currentWord := words.getLastD []
      startCommandCompletionSession commands pathScriptCommands currentWord

/-- An ordinary printable keystroke outside search mode hides the hint
and clears the completion session (`state.completionSession = null`). -/
def printableKeySession (_sess : Option Session) : Option Session :=
  none

/-! # Theorems

## C1 — the `unterminatedQuote` flag -/

/-- Scanner invariant: whenever a quote is open, a token is open. -/
lemma tokStep_quote_tokenStart (st : TokState) (ch : Char)
    (h : st.quote.isSome → st.tokenStart.isSome) :
    (tokStep st ch).quote.isSome → (tokStep st ch).tokenStart.isSome := by
  obtain ⟨tks, buf, ts, qu, qc, hqs, esc, i⟩ := st
  cases esc <;> cases qu <;> cases ts <;>
    simp_all [tokStep, pushToken] <;> split_ifs <;> simp_all

lemma scan_quote_tokenStart (s : List Char) :
    ∀ st : TokState, (st.quote.isSome → st.tokenStart.isSome) →
      ((s.foldl tokStep st).quote.isSome → (s.foldl tokStep st).tokenStart.isSome) := by
  induction s with
  | nil => intro st h; simpa using h
  | cons c rest ih =>
      intro st h
      simpa using ih (tokStep st c) (tokStep_quote_tokenStart st c h)

/-- C1: false as stated.  The source intends `unterminatedQuote:
Boolean(quote)` to report an open quoted span, but `pushToken` — which
always runs at end of input exactly when a token (and hence any quote) is
open — resets the `quote` local first, so the returned flag is `false`
for every input.  The non-throwing behaviour and the retention of the
accumulated partial token do hold, as the concrete run shows. -/
theorem unterminatedQuote_flag_is_never_set :
    (∀ src : List Char, (tokenizeCommandLine src).unterminatedQuote = false) ∧
    endsInOpenQuote "echo \"abc".toList = true ∧
    (tokenizeCommandLine "echo \"abc".toList).unterminatedQuote = false ∧
    (tokenizeCommandLine "echo \"abc".toList).tokens.map Token.value =
      ["echo".toList, "abc".toList] := by
  refine ⟨?_, by decide, by decide, by decide⟩
  intro src
  unfold tokenizeCommandLine tokFinalize
  have hinv := scan_quote_tokenStart src initTokState (by simp [initTokState])
  set st := src.foldl tokStep initTokState with hst
  set st1 := if st.escaping then { st with buf := st.buf ++ ['\\'], escaping := false } else st with hst1
  have hq1 : st1.quote = st.quote := by rw [hst1]; split <;> rfl
  have hts1 : st1.tokenStart = st.tokenStart := by rw [hst1]; split <;> rfl
  cases hts : st1.tokenStart with
  | none =>
      simp only [hts]
      cases hq : st.quote with
      | none => simp [hq1, hq]
      | some q =>
          exfalso
          have := hinv (by simp [hq])
          rw [← hts1, hts] at this
          simp at this
  | some t =>
      simp only [hts]
      simp [pushToken, hts]

/-! ## C5 — idempotence of resolve-then-display -/

lemma jsSplit_no_sep (sep : Char) (s : List Char) :
    ∀ x ∈ jsSplit sep s, sep ∉ x := by
  induction s with
  | nil => simp [jsSplit]
  | cons c rest ih =>
      intro x hx
      unfold jsSplit at hx
      by_cases hc : c = sep
      · simp [hc] at hx
        rcases hx with hx | hx
        · simp [hx]
        · exact ih x hx
      · rw [if_neg hc] at hx
        cases hrec : jsSplit sep rest with
        | nil =>
            rw [hrec] at hx
            simp at hx
            subst hx
            intro hmem
            simp at hmem
            exact hc hmem.symm
        | cons piece pieces =>
            rw [hrec] at hx
            simp at hx
            rcases hx with hx | hx
            · subst hx
              intro hmem
              rcases List.mem_cons.1 hmem with h | h
              · exact hc h.symm
              · exact ih piece (by simp [hrec]) h
            · exact ih x (by simp [hrec, hx])

lemma jsSplit_of_no_sep (sep : Char) (x : List Char) (h : sep ∉ x) :
    jsSplit sep x = [x] := by
  induction x with
  | nil => rfl
  | cons c rest ih =>
      have hc : c ≠ sep := fun hcc => h (by simp [hcc])
      have hrest : sep ∉ rest := fun hm => h (by simp [hm])
      unfold jsSplit
      simp [hc, ih hrest]

lemma jsSplit_append_sep (sep : Char) (x t : List Char) (h : sep ∉ x) :
    jsSplit sep (x ++ sep :: t) = x :: jsSplit sep t := by
  induction x with
  | nil => simp [jsSplit]
  | cons c rest ih =>
      have hc : c ≠ sep := fun hcc => h (by simp [hcc])
      have hrest : sep ∉ rest := fun hm => h (by simp [hm])
      show jsSplit sep (c :: (rest ++ sep :: t)) = _
      conv_lhs => rw [jsSplit]
      rw [if_neg hc, ih hrest]

lemma jsSplit_joinSlash (r : List (List Char)) (hr : r ≠ [])
    (h : ∀ x ∈ r, '/' ∉ x) : jsSplit '/' (joinSlash r) = r := by
  induction r with
  | nil => exact absurd rfl hr
  | cons x rest ih =>
      cases rest with
      | nil => exact jsSplit_of_no_sep '/' x (h x (by simp))
      | cons y ys =>
          have hx : '/' ∉ x := h x (by simp)
          show jsSplit '/' (x ++ '/' :: joinSlash (y :: ys)) = _
          rw [jsSplit_append_sep '/' x _ hx,
            ih (by simp) (fun z hz => h z (by simp [hz]))]

/-- The `..`/push fold of `normalizePathParts`. -/
lemma mem_dots_foldl (l : List (List Char)) :
    ∀ base x, x ∈ l.foldl
      (fun result part =>
        if part = ['.', '.'] then result.dropLast else result ++ [part]) base →
      x ∈ base ∨ (x ∈ l ∧ x ≠ ['.', '.']) := by
  induction l with
  | nil => intro base x hx; exact Or.inl hx
  | cons p ps ih =>
      intro base x hx
      simp only [List.foldl_cons] at hx
      by_cases hp : p = ['.', '.']
      · rcases ih _ x (by rwa [if_pos hp] at hx) with h | h
        · exact Or.inl (List.dropLast_prefix base |>.subset h)
        · exact Or.inr ⟨by simp [h.1], h.2⟩
      · rcases ih _ x (by rwa [if_neg hp] at hx) with h | h
        · rcases List.mem_append.1 h with h | h
          · exact Or.inl h
          · simp at h
            exact Or.inr ⟨by simp [h], h ▸ hp⟩
        · exact Or.inr ⟨by simp [h.1], h.2⟩

lemma dots_foldl_no_dotdot (l : List (List Char))
    (h : ∀ x ∈ l, x ≠ ['.', '.']) :
    ∀ base, l.foldl
      (fun result part =>
        if part = ['.', '.'] then result.dropLast else result ++ [part]) base =
      base ++ l := by
  induction l with
  | nil => simp
  | cons p ps ih =>
      intro base
      have hp : p ≠ ['.', '.'] := h p (by simp)
      simp only [List.foldl_cons, if_neg hp]
      rw [ih (fun x hx => h x (by simp [hx]))]
      simp

/-- Segments produced by resolving an absolute path are non-empty, are
neither `.` nor `..`, and contain no separator. -/
lemma normalize_absolute_segments (cwd : List (List Char)) (p : List Char)
    (habs : p.headD ' ' = '/') :
    ∀ x ∈ normalizePathParts cwd p,
      x ≠ [] ∧ x ≠ ['.'] ∧ x ≠ ['.', '.'] ∧ '/' ∉ x := by
  intro x hx
  have hp1 : p ≠ [] := by rintro rfl; simp at habs
  have hp2 : p ≠ ['.'] := by rintro rfl; simp at habs
  simp only [normalizePathParts, habs, hp1, hp2] at hx
  rcases mem_dots_foldl _ _ x hx with h | h
  · simp at h
  · have hfilter := List.of_mem_filter h.1
    have hmem := List.mem_of_mem_filter h.1
    simp at hfilter
    exact ⟨hfilter.1, hfilter.2, h.2, jsSplit_no_sep '/' p x hmem⟩

/-- C5: confirmed.  Resolving the display form of a resolution gives the
resolution back, for every cwd and every absolute path string. -/
theorem normalize_display_idempotent (cwd : List (List Char)) (p : List Char)
    (habs : p.headD ' ' = '/') :
    normalizePathParts cwd ('/' :: joinSlash (normalizePathParts cwd p)) =
      normalizePathParts cwd p := by
  have hsegs := normalize_absolute_segments cwd p habs
  set r := normalizePathParts cwd p with hr
  rcases hrc : r with _ | ⟨x, rest⟩
  · rw [show ('/' :: joinSlash ([] : List (List Char))) = ['/'] from rfl]
    unfold normalizePathParts
    rw [if_neg (by simp)]
    simp [jsSplit]
  · rw [← hrc]
    have hne : r ≠ [] := by simp [hrc]
    have hnosep : ∀ z ∈ r, '/' ∉ z := fun z hz => (hsegs z (hr ▸ hz)).2.2.2
    unfold normalizePathParts
    rw [if_neg (by simp)]
    simp only [List.headD_cons, if_pos rfl]
    rw [show jsSplit '/' ('/' :: joinSlash r) = [] :: jsSplit '/' (joinSlash r) by
      simp [jsSplit]]
    rw [jsSplit_joinSlash r hne hnosep]
    rw [show ([] :: r).filter (fun q => q ≠ [] && q ≠ ['.']) =
        r.filter (fun q => q ≠ [] && q ≠ ['.']) by simp [List.filter]]
    rw [List.filter_eq_self.2 (by
      intro z hz
      have := hsegs z (hr ▸ hz)
      simp [this.1, this.2.1])]
    exact dots_foldl_no_dotdot r (fun z hz => (hsegs z (hr ▸ hz)).2.2.1) []

/-- C5 witness. -/
theorem normalize_display_idempotent_witness :
    normalizePathParts ["user".toList] ('/' :: joinSlash
      (normalizePathParts ["user".toList] "/a/../b/./c".toList)) =
      normalizePathParts ["user".toList] "/a/../b/./c".toList :=
  normalize_display_idempotent ["user".toList] "/a/../b/./c".toList (by decide)

/-! ## VFS infrastructure lemmas -/

lemma all_attach_eq (l : List VFolder) (g : VFolder → Bool) :
    (l.attach.all fun c => g c.1) = l.all g := by
  rw [Bool.eq_iff_iff, List.all_eq_true, List.all_eq_true]
  simp

lemma goodWith_node (fileOk : Option (List Char) → Bool) (n : List Char)
    (fs : List VFolder) (fl : List VFile) :
    goodWith fileOk (.node n fs fl) =
      (decide ((fs.map VFolder.name).Nodup) &&
       decide ((fl.map VFile.name).Nodup) &&
       fs.all (fun c => validNameB c.name) &&
       fl.all (fun f => fileOk f.name) &&
       fs.all (fun c => goodWith fileOk c)) := by
  rw [goodWith]
  congr 1
  exact all_attach_eq fs (goodWith fileOk)

lemma goodWith_node_iff (fileOk : Option (List Char) → Bool) (n : List Char)
    (fs : List VFolder) (fl : List VFile) :
    goodWith fileOk (.node n fs fl) = true ↔
      (fs.map VFolder.name).Nodup ∧ (fl.map VFile.name).Nodup ∧
      (∀ c ∈ fs, validNameB c.name = true) ∧
      (∀ f ∈ fl, fileOk f.name = true) ∧
      (∀ c ∈ fs, goodWith fileOk c = true) := by
  rw [goodWith_node]
  simp [List.all_eq_true, and_assoc]

/-- A resolved folder inside a good tree is good. -/
lemma goodWith_resolveFolder (fileOk : Option (List Char) → Bool)
    (parts : List (List Char)) :
    ∀ root g : VFolder, goodWith fileOk root = true →
      resolveFolder root parts = some g → goodWith fileOk g = true := by
  induction parts with
  | nil =>
      intro root g hroot hres
      simp [resolveFolder] at hres
      exact hres ▸ hroot
  | cons p ps ih =>
      intro root g hroot hres
      unfold resolveFolder at hres
      cases hf : root.folders.find? (fun f => f.name = p) with
      | none => rw [hf] at hres; cases hres
      | some next =>
          rw [hf] at hres
          have hmem := List.mem_of_find?_eq_some hf
          obtain ⟨n, fs, fl⟩ := root
          have hprops := (goodWith_node_iff fileOk n fs fl).1 hroot
          exact ih next g (hprops.2.2.2.2 next hmem) hres

/-- Segments that resolve against a good tree are valid names. -/
lemma resolve_parts_valid (fileOk : Option (List Char) → Bool)
    (parts : List (List Char)) :
    ∀ root g : VFolder, goodWith fileOk root = true →
      resolveFolder root parts = some g →
      ∀ seg ∈ parts, validNameB seg = true := by
  induction parts with
  | nil => intro root g _ _ seg hseg; simp at hseg
  | cons p ps ih =>
      intro root g hroot hres seg hseg
      unfold resolveFolder at hres
      cases hf : root.folders.find? (fun f => f.name = p) with
      | none => rw [hf] at hres; cases hres
      | some next =>
          rw [hf] at hres
          have hmem := List.mem_of_find?_eq_some hf
          have hname : next.name = p := by
            have := List.find?_some hf
            simpa using this
          obtain ⟨n, fs, fl⟩ := root
          have hprops := (goodWith_node_iff fileOk n fs fl).1 hroot
          rcases List.mem_cons.1 hseg with h | h
          · subst h
            exact hname ▸ hprops.2.2.1 next hmem
          · exact ih next g (hprops.2.2.2.2 next hmem) hres seg h

/-- Every segment of a normalized path is a valid name, provided the cwd
segments are. -/
lemma normalize_segments_valid (cwd : List (List Char)) (p : List Char)
    (hcwd : ∀ seg ∈ cwd, validNameB seg = true) :
    ∀ x ∈ normalizePathParts cwd p, validNameB x = true := by
  intro x hx
  unfold normalizePathParts at hx
  by_cases hp : (p = [] || p = ['.']) = true
  · rw [if_pos hp] at hx
    exact hcwd x hx
  · rw [if_neg hp] at hx
    rcases mem_dots_foldl _ _ x hx with h | h
    · split at h
      · simp at h
      · exact hcwd x h
    · have hfilter := List.of_mem_filter h.1
      have hmem := List.mem_of_mem_filter h.1
      simp at hfilter
      have hnosep := jsSplit_no_sep '/' p x hmem
      simp [validNameB, hfilter.1]
      exact hnosep

lemma mem_updateFirst (p : VFolder → Bool) (f : VFolder → VFolder) :
    ∀ l c, c ∈ updateFirst p f l →
      c ∈ l ∨ (∃ x, l.find? p = some x ∧ c = f x) := by
  intro l
  induction l with
  | nil => intro c hc; simp [updateFirst] at hc
  | cons x xs ih =>
      intro c hc
      unfold updateFirst at hc
      by_cases hx : p x
      · rw [if_pos hx] at hc
        rcases List.mem_cons.1 hc with h | h
        · exact Or.inr ⟨x, by simp [List.find?_cons_of_pos _ hx], h⟩
        · exact Or.inl (by simp [h])
      · rw [if_neg hx] at hc
        rcases List.mem_cons.1 hc with h | h
        · exact Or.inl (by simp [h])
        · rcases ih c h with h' | ⟨y, hy, hcy⟩
          · exact Or.inl (by simp [h'])
          · exact Or.inr ⟨y, by simp [List.find?_cons_of_neg _ hx, hy], hcy⟩

lemma map_name_updateFirst (p : VFolder → Bool) (f : VFolder → VFolder)
    (hf : ∀ g, (f g).name = g.name) :
    ∀ l, (updateFirst p f l).map VFolder.name = l.map VFolder.name := by
  intro l
  induction l with
  | nil => rfl
  | cons x xs ih =>
      unfold updateFirst
      by_cases hx : p x
      · rw [if_pos hx]; simp [hf]
      · rw [if_neg hx]; simp [ih]

lemma find?_updateFirst (seg : List Char) (f : VFolder → VFolder)
    (hf : ∀ g, (f g).name = g.name) :
    ∀ l, (updateFirst (fun c => c.name = seg) f l).find? (fun c => c.name = seg) =
      (l.find? (fun c => c.name = seg)).map f := by
  intro l
  induction l with
  | nil => rfl
  | cons x xs ih =>
      unfold updateFirst
      by_cases hx : x.name = seg
      · rw [if_pos (by simp [hx])]
        rw [List.find?_cons_of_pos _ (by simp [hf, hx]),
          List.find?_cons_of_pos _ (by simp [hx])]
        rfl
      · rw [if_neg (by simp [hx])]
        rw [List.find?_cons_of_neg _ (by simp [hx]),
          List.find?_cons_of_neg _ (by simp [hx])]
        exact ih

lemma updateFolderAt_name (f : VFolder → VFolder)
    (hf : ∀ g, (f g).name = g.name) :
    ∀ parts root, (updateFolderAt f parts root).name = root.name := by
  intro parts root
  cases parts with
  | nil => exact hf root
  | cons p ps => cases root with | node n fs fl => rfl

/-- Resolving the updated path in the updated tree yields the image of
the originally resolved folder. -/
lemma resolveFolder_updateFolderAt (f : VFolder → VFolder)
    (hf : ∀ g, (f g).name = g.name) :
    ∀ parts root,
      resolveFolder (updateFolderAt f parts root) parts =
        (resolveFolder root parts).map f := by
  intro parts
  induction parts with
  | nil => intro root; simp [updateFolderAt, resolveFolder]
  | cons p ps ih =>
      intro root
      obtain ⟨n, fs, fl⟩ := root
      show resolveFolder (.node n (updateFirst _ _ fs) fl) (p :: ps) = _
      unfold resolveFolder
      simp only [VFolder.folders]
      rw [find?_updateFirst p (updateFolderAt f ps)
        (fun g => updateFolderAt_name f hf ps g) fs]
      cases hfind : fs.find? (fun c => c.name = p) with
      | none => simp
      | some next => simpa using ih next

/-- The tree invariant is preserved by an update whose local change
preserves goodness of the resolved folder (and its name). -/
lemma goodWith_updateFolderAt (fileOk : Option (List Char) → Bool)
    (f : VFolder → VFolder) (hf : ∀ g, (f g).name = g.name) :
    ∀ parts root, goodWith fileOk root = true →
      (∀ g, resolveFolder root parts = some g → goodWith fileOk (f g) = true) →
      goodWith fileOk (updateFolderAt f parts root) = true := by
  intro parts
  induction parts with
  | nil =>
      intro root hroot hgood
      exact hgood root (by simp [resolveFolder])
  | cons p ps ih =>
      intro root hroot hgood
      obtain ⟨n, fs, fl⟩ := root
      have hprops := (goodWith_node_iff fileOk n fs fl).1 hroot
      obtain ⟨h1, h2, h3, h4, h5⟩ := hprops
      show goodWith fileOk (.node n (updateFirst _ _ fs) fl) = true
      rw [goodWith_node_iff]
      refine ⟨?_, h2, ?_, h4, ?_⟩
      · rw [map_name_updateFirst _ _ (fun g => updateFolderAt_name f hf ps g) fs]
        exact h1
      · intro c hc
        rcases mem_updateFirst _ _ fs c hc with h | ⟨x, hx, hcx⟩
        · exact h3 c h
        · rw [hcx, updateFolderAt_name f hf ps x]
          exact h3 x (List.mem_of_find?_eq_some hx)
      · intro c hc
        rcases mem_updateFirst _ _ fs c hc with h | ⟨x, hx, hcx⟩
        · exact h5 c h
        · subst hcx
          refine ih x (h5 x (List.mem_of_find?_eq_some hx)) ?_
          intro g hg
          refine hgood g ?_
          show resolveFolder (.node n fs fl) (p :: ps) = some g
          unfold resolveFolder
          rw [show (VFolder.node n fs fl).folders = fs from rfl, hx]
          exact hg

/-! ## Per-operation preservation of the state invariant -/

lemma goodState_iff (s : VfsState) :
    goodState s = true ↔
      laxGood s.root = true ∧ ∀ seg ∈ s.cwdParts, validNameB seg = true := by
  simp [goodState, List.all_eq_true]

lemma goodState_changeDirectory (path : List Char) (s : VfsState)
    (h : goodState s = true) :
    goodState (changeDirectory path s).state = true := by
  unfold changeDirectory
  split
  · simpa [MutResult.state] using h
  · rename_i g hres
    simp only [MutResult.state]
    rw [goodState_iff] at h ⊢
    refine ⟨h.1, ?_⟩
    intro seg hseg
    exact resolve_parts_valid fileNameLax _ s.root g h.1 hres seg hseg

lemma putFile_names (nm : Option (List Char)) (c : List Char)
    (fl : List VFile) :
    (putFile nm c fl).map VFile.name =
      if fl.any (fun f => f.name = nm) then fl.map VFile.name
      else fl.map VFile.name ++ [nm] := by
  induction fl with
  | nil => simp [putFile]
  | cons f fs ih =>
      by_cases h : f.name = nm
      · simp [putFile, h]
      · simp only [putFile, if_neg h, List.map_cons, ih, List.any_cons]
        simp only [h, decide_False, Bool.false_or]
        split <;> simp

lemma find?_putFile (nm : Option (List Char)) (c : List Char)
    (fl : List VFile) :
    (putFile nm c fl).find? (fun f => f.name = nm) =
      some { name := nm, content := c } := by
  induction fl with
  | nil => simp [putFile, List.find?]
  | cons f fs ih =>
      by_cases h : f.name = nm
      · unfold putFile
        rw [if_pos h, List.find?_cons_of_pos _ (by simpa using h)]
        simp [h]
      · unfold putFile
        rw [if_neg h, List.find?_cons_of_neg _ (by simpa using h)]
        exact ih

lemma goodState_mkdir (nm : List Char) (s : VfsState)
    (h : goodState s = true) :
    goodState (mkdir nm s).state = true := by
  unfold mkdir
  split
  · simpa [MutResult.state] using h
  · split
    · simpa [MutResult.state] using h
    · split
      · simpa [MutResult.state] using h
      · rename_i hguard x cwd hres hdup
        simp only [MutResult.state]
        rw [goodState_iff] at h ⊢
        simp only [laxGood] at h ⊢
        refine ⟨?_, h.2⟩
        refine goodWith_updateFolderAt fileNameLax
          (fun g => VFolder.node g.name (g.folders ++ [VFolder.node nm [] []]) g.files)
          (fun g => rfl) s.cwdParts s.root h.1 ?_
        intro g hg
        rw [hres] at hg
        injection hg with hg
        subst hg
        simp only [Bool.or_eq_true, not_or] at hguard
        obtain ⟨n, fs, fl⟩ := cwd
        simp only [VFolder.folders, VFolder.files, Bool.or_eq_true, not_or] at hdup
        have hprops := (goodWith_node_iff fileNameLax n fs fl).1
          (goodWith_resolveFolder fileNameLax s.cwdParts s.root _ h.1 hres)
        obtain ⟨h1, h2, h3, h4, h5⟩ := hprops
        rw [goodWith_node_iff]
        have hnosl : ∀ c ∈ nm, c ≠ '/' := by
          intro c hc hceq
          have hany : (nm.any fun c => c = '\\' || c = '/') = true := by
            simp only [List.any_eq_true]
            exact ⟨c, hc, by simp [hceq]⟩
          exact hguard.2 hany
        have hnm_valid : validNameB nm = true := by
          simp only [validNameB, Bool.and_eq_true, Bool.not_eq_true']
          refine ⟨by simpa using hguard.1, ?_⟩
          rw [List.contains_eq_any_beq, List.any_eq_false]
          intro c hc
          simp only [beq_iff_eq]
          exact fun hcc => hnosl c hc hcc.symm
        have hnotmem : nm ∉ fs.map VFolder.name := by
          intro hmem
          rcases List.mem_map.1 hmem with ⟨x, hx, hxeq⟩
          refine hdup.1 ?_
          simp only [List.any_eq_true]
          exact ⟨x, hx, by simp [hxeq]⟩
        refine ⟨?_, h2, ?_, h4, ?_⟩
        · rw [List.map_append, List.nodup_append]
          refine ⟨h1, by simp, ?_⟩
          intro a ha hb
          simp only [List.map_cons, List.map_nil, List.mem_singleton,
            VFolder.name] at hb
          subst hb
          exact hnotmem ha
        · intro c hc
          rcases List.mem_append.1 hc with hc | hc
          · exact h3 c hc
          · simp at hc
            subst hc
            exact hnm_valid
        · intro c hc
          rcases List.mem_append.1 hc with hc | hc
          · exact h5 c hc
          · simp at hc
            subst hc
            rw [goodWith_node_iff]
            simp

lemma goodState_rmdir (nm : List Char) (s : VfsState)
    (h : goodState s = true) :
    goodState (rmdir nm s).state = true := by
  unfold rmdir
  split
  · simpa [MutResult.state] using h
  · split
    · simpa [MutResult.state] using h
    · split
      · simpa [MutResult.state] using h
      · simp only [MutResult.state]
        rw [goodState_iff] at h ⊢
        simp only [laxGood] at h ⊢
        refine ⟨?_, h.2⟩
        refine goodWith_updateFolderAt fileNameLax
          (fun g => VFolder.node g.name (g.folders.eraseP (fun f => f.name = nm)) g.files)
          (fun g => rfl) s.cwdParts s.root h.1 ?_
        intro g hg
        obtain ⟨n, fs, fl⟩ := g
        have hprops := (goodWith_node_iff fileNameLax n fs fl).1
          (goodWith_resolveFolder fileNameLax s.cwdParts s.root _ h.1 hg)
        obtain ⟨h1, h2, h3, h4, h5⟩ := hprops
        rw [goodWith_node_iff]
        have hsub : (fs.eraseP (fun f => f.name = nm)).Sublist fs :=
          List.eraseP_sublist fs
        refine ⟨?_, h2, ?_, h4, ?_⟩
        · exact h1.sublist (hsub.map VFolder.name)
        · intro c hc
          exact h3 c (hsub.subset hc)
        · intro c hc
          exact h5 c (hsub.subset hc)

lemma goodState_writeFile (path content : List Char) (s : VfsState)
    (h : goodState s = true) :
    goodState (writeFile path content s).state = true := by
  unfold writeFile
  split
  · simpa [MutResult.state] using h
  · simp only [MutResult.state]
    rw [goodState_iff] at h ⊢
    simp only [laxGood] at h ⊢
    refine ⟨?_, h.2⟩
    refine goodWith_updateFolderAt fileNameLax
      (fun g => VFolder.node g.name g.folders
        (putFile (normalizePathParts s.cwdParts path).getLast? content g.files))
      (fun g => rfl) (normalizePathParts s.cwdParts path).dropLast s.root h.1 ?_
    intro g hg
    obtain ⟨n, fs, fl⟩ := g
    have hprops := (goodWith_node_iff fileNameLax n fs fl).1
      (goodWith_resolveFolder fileNameLax _ s.root _ h.1 hg)
    obtain ⟨h1, h2, h3, h4, h5⟩ := hprops
    rw [goodWith_node_iff]
    set nm := (normalizePathParts s.cwdParts path).getLast? with hnm
    have hnm_ok : fileNameLax nm = true := by
      cases hnmc : nm with
      | none => rfl
      | some seg =>
          have hmem := List.mem_of_getLast?_eq_some (hnm ▸ hnmc)
          have hcwd : ∀ seg ∈ s.cwdParts, validNameB seg = true :=
            (goodState_iff s).1 (by rw [goodState_iff]; exact h) |>.2
          exact normalize_segments_valid s.cwdParts path hcwd seg hmem
    refine ⟨h1, ?_, h3, ?_, h5⟩
    · rw [putFile_names]
      split
      · exact h2
      · rename_i hany
        have hnm_notmem : nm ∉ fl.map VFile.name := by
          intro hmem
          rcases List.mem_map.1 hmem with ⟨x, hx, hxeq⟩
          exact hany (by simp only [List.any_eq_true]; exact ⟨x, hx, by simp [hxeq]⟩)
        rw [List.nodup_append]
        refine ⟨h2, by simp, ?_⟩
        intro a ha hb
        simp only [List.mem_singleton] at hb
        subst hb
        exact hnm_notmem ha
    · intro f hf
      have : f.name ∈ (putFile nm content fl).map VFile.name :=
        List.mem_map.2 ⟨f, hf, rfl⟩
      rw [putFile_names] at this
      split at this
      · rcases List.mem_map.1 this with ⟨x, hx, hxeq⟩
        exact hxeq ▸ h4 x hx
      · rcases List.mem_append.1 this with hm | hm
        · rcases List.mem_map.1 hm with ⟨x, hx, hxeq⟩
          exact hxeq ▸ h4 x hx
        · simp at hm
          exact hm ▸ hnm_ok

lemma goodState_unlink (path : List Char) (s : VfsState)
    (h : goodState s = true) :
    goodState (unlink path s).state = true := by
  unfold unlink
  split
  · simpa [MutResult.state] using h
  · split
    · simpa [MutResult.state] using h
    · simp only [MutResult.state]
      rw [goodState_iff] at h ⊢
      simp only [laxGood] at h ⊢
      refine ⟨?_, h.2⟩
      refine goodWith_updateFolderAt fileNameLax
        (fun g => VFolder.node g.name g.folders
          (g.files.eraseP
            (fun f => f.name = (normalizePathParts s.cwdParts path).getLast?)))
        (fun g => rfl) (normalizePathParts s.cwdParts path).dropLast s.root h.1 ?_
      intro g hg
      obtain ⟨n, fs, fl⟩ := g
      have hprops := (goodWith_node_iff fileNameLax n fs fl).1
        (goodWith_resolveFolder fileNameLax _ s.root _ h.1 hg)
      obtain ⟨h1, h2, h3, h4, h5⟩ := hprops
      rw [goodWith_node_iff]
      have hsub : (fl.eraseP (fun f =>
          f.name = (normalizePathParts s.cwdParts path).getLast?)).Sublist fl :=
        List.eraseP_sublist fl
      refine ⟨h1, ?_, h3, ?_, h5⟩
      · exact h2.sublist (hsub.map VFile.name)
      · intro f hf
        exact h4 f (hsub.subset hf)

lemma goodState_applyOp (op : VfsOp) (s : VfsState)
    (h : goodState s = true) :
    goodState ((applyOp op s).state) = true := by
  cases op with
  | cd p => exact goodState_changeDirectory p s h
  | mkdirOp n => exact goodState_mkdir n s h
  | rmdirOp n => exact goodState_rmdir n s h
  | write p c => exact goodState_writeFile p c s h
  | unlinkOp p => exact goodState_unlink p s h
  | read p =>
      simp only [applyOp]
      cases hr : readFile p s <;> simpa [hr, MutResult.state] using h

lemma goodState_default : goodState defaultVfsState = true := by
  rw [goodState_iff]
  refine ⟨?_, by simp [defaultVfsState]⟩
  show goodWith fileNameLax (.node ['/'] [] []) = true
  rw [goodWith_node]
  decide

/-! ## C2 — the tree invariant -/

/-- C2 counterexample: the claim is false as stated.  From the default
(reachable) state, `writeFile("/", "x")` resolves to zero segments, so
`parts.pop()` yields `undefined` and a file node *without a name* is
appended at the root — nothing is rejected — violating the claim's
"no node has an empty name (empty names are rejected)".  `strictGood` is
the claim's invariant (every file carries a non-empty, separator-free
name); it holds before and fails after. -/
theorem writeFile_root_breaks_name_invariant :
    writeFile "/".toList "x".toList defaultVfsState =
      .saved { root := .node ['/'] [] [{ name := none, content := "x".toList }]
               cwdParts := [] } ∧
    strictGood defaultVfsState.root = true ∧
    strictGood (VFolder.node ['/'] []
      [{ name := none, content := "x".toList }]) = false := by
  refine ⟨rfl, ?_, ?_⟩
  · show goodWith fileNameStrict (.node ['/'] [] []) = true
    rw [goodWith_node]
    decide
  · rw [strictGood, goodWith_node]
    decide

/-- C2 as amended: every store operation — including every error path,
and `writeFile` with paths such as `/` — preserves the weakened tree
invariant in which a file node's name may be *absent* (the `undefined`
from `parts.pop()` on an empty resolution) but is never the empty string
and never contains the separator, folder and file names stay unique
within each folder, and cwd segments stay valid; consequently the
invariant holds in every state reachable from the default state. -/
theorem vfs_ops_preserve_lax_invariant :
    (∀ op s, goodState s = true → goodState ((applyOp op s).state) = true) ∧
    (∀ ops, goodState (runOps ops defaultVfsState) = true) := by
  refine ⟨goodState_applyOp, ?_⟩
  intro ops
  have hrun : ∀ s, goodState s = true → goodState (runOps ops s) = true := by
    induction ops with
    | nil => intro s hs; simpa [runOps] using hs
    | cons op rest ih =>
        intro s hs
        have h1 := goodState_applyOp op s hs
        have : runOps (op :: rest) s = runOps rest ((applyOp op s).state) := by
          simp [runOps]
        rw [this]
        exact ih _ h1
  exact hrun _ goodState_default

/-- C2 witness: the amended preservation applied at the concrete
operation `writeFile("/", "x")` on the default state. -/
theorem vfs_ops_preserve_lax_invariant_witness :
    goodState defaultVfsState = true ∧
    goodState ((applyOp (.write "/".toList "x".toList)
      defaultVfsState).state) = true :=
  ⟨goodState_default,
    vfs_ops_preserve_lax_invariant.1 (.write "/".toList "x".toList)
      defaultVfsState goodState_default⟩

/-! ## C6 — mkdir/rmdir error lifecycle -/

/-- Computation rule for `mkdir` once the cwd folder is known. -/
lemma mkdir_resolved (nm : List Char) (s : VfsState) (cwd : VFolder)
    (hres : resolveFolder s.root s.cwdParts = some cwd)
    (hguard : ¬(nm = [] || nm.any fun c => c = '\\' || c = '/') = true) :
    mkdir nm s =
      if ((cwd.folders.any fun f => f.name = nm) ||
          cwd.files.any fun f => f.name = some nm) = true then
        .thrown .alreadyExists s
      else
        .saved { s with
          root := updateFolderAt
            (fun g => .node g.name (g.folders ++ [.node nm [] []]) g.files)
            s.cwdParts s.root } := by
  unfold mkdir
  rw [if_neg hguard]
  split
  · rename_i h
    rw [h] at hres
    cases hres
  · rename_i x cwd' h
    rw [h] at hres
    injection hres with hres
    subst hres
    rfl

/-- Inversion of a successful `mkdir`. -/
lemma mkdir_saved_inversion (nm : List Char) (s s' : VfsState)
    (hm : mkdir nm s = .saved s') :
    ¬(nm = [] || nm.any fun c => c = '\\' || c = '/') = true ∧
    ∃ cwd, resolveFolder s.root s.cwdParts = some cwd ∧
      ¬((cwd.folders.any fun f => f.name = nm) ||
         cwd.files.any fun f => f.name = some nm) = true ∧
      s' = { s with
        root := updateFolderAt
          (fun g => .node g.name (g.folders ++ [.node nm [] []]) g.files)
          s.cwdParts s.root } := by
  unfold mkdir at hm
  split at hm
  · cases hm
  · split at hm
    · cases hm
    · split at hm
      · cases hm
      · rename_i hguard x cwd hres hdup
        injection hm with hm
        exact ⟨hguard, cwd, hres, hdup, hm.symm⟩

/-- Computation rule for `rmdir` when the name is found in the cwd. -/
lemma rmdir_found (nm : List Char) (s : VfsState) (cwd folder : VFolder)
    (hres : resolveFolder s.root s.cwdParts = some cwd)
    (hfind : cwd.folders.find? (fun f => f.name = nm) = some folder) :
    rmdir nm s =
      if (!folder.folders.isEmpty || !folder.files.isEmpty) = true then
        .thrown .notEmpty s
      else
        .saved { s with
          root := updateFolderAt
            (fun g => .node g.name
              (g.folders.eraseP (fun f => f.name = nm)) g.files)
            s.cwdParts s.root } := by
  unfold rmdir
  split
  · rename_i h
    rw [h] at hres
    cases hres
  · rename_i x cwd' h
    rw [h] at hres
    injection hres with hres
    subst hres
    split
    · rename_i h2
      rw [h2] at hfind
      cases hfind
    · rename_i f' h2
      rw [h2] at hfind
      injection hfind with hfind
      subst hfind
      rfl

/-- Computation rule for `rmdir` when the name is absent from the cwd. -/
lemma rmdir_notfound (nm : List Char) (s : VfsState) (cwd : VFolder)
    (hres : resolveFolder s.root s.cwdParts = some cwd)
    (hfind : cwd.folders.find? (fun f => f.name = nm) = none) :
    rmdir nm s = .thrown .notFound s := by
  unfold rmdir
  split
  · rename_i h
    rw [h] at hres
    cases hres
  · rename_i x cwd' h
    rw [h] at hres
    injection hres with hres
    subst hres
    split
    · rfl
    · rename_i f' h2
      rw [h2] at hfind
      cases hfind

/-- C6: after a successful `mkdir("a")`, a second `mkdir("a")` fails with
`AlreadyExists` (as does `mkdir` when a same-named file exists in the
cwd, while empty or separator-carrying names fail with `InvalidName`);
`rmdir("a")` on the fresh, still-empty folder succeeds and restores the
cwd folder exactly; a second `rmdir("a")` then fails with `NotFound`; and
`rmdir` of a folder with any child fails with `NotEmpty`. -/
theorem mkdir_rmdir_lifecycle :
    (∀ nm s s', mkdir nm s = .saved s' →
       mkdir nm s' = .thrown .alreadyExists s' ∧
       ∃ s'', rmdir nm s' = .saved s'' ∧
         resolveFolder s''.root s''.cwdParts = resolveFolder s.root s.cwdParts ∧
         rmdir nm s'' = .thrown .notFound s'') ∧
    (∀ nm s cwd, resolveFolder s.root s.cwdParts = some cwd →
       (cwd.files.any fun f => f.name = some nm) = true →
       ¬(nm = [] || nm.any fun c => c = '\\' || c = '/') = true →
       mkdir nm s = .thrown .alreadyExists s) ∧
    (∀ s, mkdir [] s = .thrown .invalidName s) ∧
    (∀ nm s, '/' ∈ nm → mkdir nm s = .thrown .invalidName s) ∧
    (∀ nm s cwd c, resolveFolder s.root s.cwdParts = some cwd →
       cwd.folders.find? (fun f => f.name = nm) = some c →
       (!c.folders.isEmpty || !c.files.isEmpty) = true →
       rmdir nm s = .thrown .notEmpty s) := by
  refine ⟨?_, ?_, ?_, ?_, ?_⟩
  · intro nm s s' hm
    obtain ⟨hguard, cwd, hres, hdup, hs'⟩ := mkdir_saved_inversion nm s s' hm
    obtain ⟨cn, cfs, cfl⟩ := cwd
    simp only [Bool.or_eq_true, not_or, VFolder.folders, VFolder.files] at hdup
    have hfs_none : cfs.find? (fun f => f.name = nm) = none :=
      List.find?_eq_none.2 (by
        intro x hx
        simp only [decide_eq_true_eq]
        intro hxn
        exact hdup.1 (by
          simp only [List.any_eq_true]
          exact ⟨x, hx, by simp [hxn]⟩))
    have hpush := resolveFolder_updateFolderAt
      (fun g => VFolder.node g.name (g.folders ++ [VFolder.node nm [] []]) g.files)
      (fun g => rfl) s.cwdParts s.root
    rw [hres] at hpush
    simp only [Option.map_some'] at hpush
    have hs'root : s'.root = updateFolderAt
        (fun g => VFolder.node g.name (g.folders ++ [VFolder.node nm [] []]) g.files)
        s.cwdParts s.root := by rw [hs']
    have hs'cwd : s'.cwdParts = s.cwdParts := by rw [hs']
    have hres' : resolveFolder s'.root s'.cwdParts =
        some (VFolder.node cn (cfs ++ [VFolder.node nm [] []]) cfl) := by
      rw [hs'root, hs'cwd]
      exact hpush
    have hfind' : (VFolder.node cn (cfs ++ [VFolder.node nm [] []])
        cfl).folders.find? (fun f => f.name = nm) = some (VFolder.node nm [] []) := by
      show (cfs ++ [VFolder.node nm [] []]).find? (fun f => f.name = nm) = _
      rw [List.find?_append, hfs_none]
      rw [List.find?_cons_of_pos _ (by simp [VFolder.name])]
      rfl
    constructor
    · rw [mkdir_resolved nm s' _ hres' hguard]
      rw [if_pos]
      simp only [VFolder.folders, VFolder.files, List.any_append,
        Bool.or_eq_true, List.any_eq_true]
      exact Or.inl (Or.inr ⟨.node nm [] [], by simp, by simp [VFolder.name]⟩)
    · have herase_eq : (cfs ++ [VFolder.node nm [] []]).eraseP
          (fun f => f.name = nm) = cfs := by
        rw [List.eraseP_append_right _ (by
          intro b hb
          simp only [decide_eq_true_eq]
          intro hbn
          exact hdup.1 (by
            simp only [List.any_eq_true]
            exact ⟨b, hb, by simp [hbn]⟩))]
        rw [List.eraseP_cons_of_pos (by simp [VFolder.name])]
        simp
      have hrm := rmdir_found nm s' _ _ hres' hfind'
      rw [if_neg (by simp [VFolder.folders, VFolder.files])] at hrm
      refine ⟨_, hrm, ?_, ?_⟩
      · show resolveFolder (updateFolderAt
            (fun g => VFolder.node g.name
              (g.folders.eraseP (fun f => f.name = nm)) g.files)
            s'.cwdParts s'.root) s'.cwdParts = resolveFolder s.root s.cwdParts
        rw [resolveFolder_updateFolderAt
          (fun g => VFolder.node g.name
            (g.folders.eraseP (fun f => f.name = nm)) g.files)
          (fun g => rfl) s'.cwdParts s'.root, hres', hres]
        simp only [Option.map_some', VFolder.name_node, VFolder.folders_node,
          VFolder.files_node]
        rw [herase_eq]
      · refine rmdir_notfound nm _ (VFolder.node cn cfs cfl) ?_ hfs_none
        show resolveFolder (updateFolderAt
            (fun g => VFolder.node g.name
              (g.folders.eraseP (fun f => f.name = nm)) g.files)
            s'.cwdParts s'.root) s'.cwdParts = some (VFolder.node cn cfs cfl)
        rw [resolveFolder_updateFolderAt
          (fun g => VFolder.node g.name
            (g.folders.eraseP (fun f => f.name = nm)) g.files)
          (fun g => rfl) s'.cwdParts s'.root, hres']
        simp only [Option.map_some', VFolder.name_node, VFolder.folders_node,
          VFolder.files_node]
        rw [herase_eq]
  · intro nm s cwd hres hfile hguard
    rw [mkdir_resolved nm s cwd hres hguard]
    rw [if_pos (by simp [hfile])]
  · intro s
    rfl
  · intro nm s hsl
    unfold mkdir
    rw [if_pos]
    simp only [Bool.or_eq_true, List.any_eq_true]
    exact Or.inr ⟨'/', hsl, by simp⟩
  · intro nm s cwd c hres hfind hne
    rw [rmdir_found nm s cwd c hres hfind, if_pos hne]

/-- C6 witness: the lifecycle at `mkdir "a"` on the default state. -/
theorem mkdir_rmdir_lifecycle_witness :
    mkdir "a".toList defaultVfsState =
      .saved { root := .node ['/'] [.node ['a'] [] []] [], cwdParts := [] } ∧
    mkdir "a".toList
      { root := .node ['/'] [.node ['a'] [] []] [], cwdParts := [] } =
      .thrown .alreadyExists
        { root := .node ['/'] [.node ['a'] [] []] [], cwdParts := [] } ∧
    ∃ s'', rmdir "a".toList
        { root := .node ['/'] [.node ['a'] [] []] [], cwdParts := [] } =
        .saved s'' ∧
      rmdir "a".toList s'' = .thrown .notFound s'' := by
  have h : mkdir "a".toList defaultVfsState =
      .saved { root := .node ['/'] [.node ['a'] [] []] [], cwdParts := [] } := rfl
  obtain ⟨h1, s'', h2, _, h3⟩ := mkdir_rmdir_lifecycle.1 "a".toList
    defaultVfsState _ h
  exact ⟨h, h1, s'', h2, h3⟩

/-! ## C7 — writeFile / readFile overwrite semantics -/

/-- Computation rule for `readFile` once the parent folder is known. -/
lemma readFile_resolved (path : List Char) (s : VfsState) (parent : VFolder)
    (hres : resolveFolder s.root
      (normalizePathParts s.cwdParts path).dropLast = some parent) :
    readFile path s =
      match parent.files.find?
          (fun f => f.name = (normalizePathParts s.cwdParts path).getLast?) with
      | none => .error .notFound
      | some file => .ok file.content := by
  unfold readFile
  split
  · rename_i h
    rw [h] at hres
    cases hres
  · rename_i x parent' h
    rw [h] at hres
    injection hres with hres
    subst hres
    rfl

/-- C7: confirmed.  In any state, writing `/x.txt` succeeds (its parent
is the always-present root), reading it back returns the written
content, a second write overwrites in place — the file list keeps the
same names and the same length, no second node appears — and reading
again returns the new content. -/
theorem writeFile_overwrite_roundtrip (s : VfsState) :
    ∃ s1 s2,
      writeFile "/x.txt".toList "hello".toList s = .saved s1 ∧
      readFile "/x.txt".toList s1 = .ok "hello".toList ∧
      writeFile "/x.txt".toList "world".toList s1 = .saved s2 ∧
      readFile "/x.txt".toList s2 = .ok "world".toList ∧
      s2.root.files.map VFile.name = s1.root.files.map VFile.name ∧
      s2.root.files.length = s1.root.files.length := by
  have hany : ((putFile (some "x.txt".toList) "hello".toList
      s.root.files).any fun f => f.name = some "x.txt".toList) = true :=
    List.any_eq_true.2 ⟨_, List.mem_of_find?_eq_some
      (find?_putFile (some "x.txt".toList) "hello".toList s.root.files),
      by simp⟩
  refine ⟨{ s with
      root := .node s.root.name s.root.folders
        (putFile (some "x.txt".toList) "hello".toList s.root.files) },
    { s with
      root := .node s.root.name s.root.folders
        (putFile (some "x.txt".toList) "world".toList
          (putFile (some "x.txt".toList) "hello".toList s.root.files)) },
    rfl, ?_, rfl, ?_, ?_, ?_⟩
  · rw [readFile_resolved "/x.txt".toList
      { s with
        root := .node s.root.name s.root.folders
          (putFile (some "x.txt".toList) "hello".toList s.root.files) }
      (.node s.root.name s.root.folders
        (putFile (some "x.txt".toList) "hello".toList s.root.files)) rfl]
    rw [VFolder.files_node]
    rw [show (normalizePathParts s.cwdParts "/x.txt".toList).getLast? =
      some "x.txt".toList from rfl]
    rw [find?_putFile]
  · rw [readFile_resolved "/x.txt".toList
      { s with
        root := .node s.root.name s.root.folders
          (putFile (some "x.txt".toList) "world".toList
            (putFile (some "x.txt".toList) "hello".toList s.root.files)) }
      (.node s.root.name s.root.folders
        (putFile (some "x.txt".toList) "world".toList
          (putFile (some "x.txt".toList) "hello".toList s.root.files))) rfl]
    rw [VFolder.files_node]
    rw [show (normalizePathParts s.cwdParts "/x.txt".toList).getLast? =
      some "x.txt".toList from rfl]
    rw [find?_putFile]
  · rw [VFolder.files_node, VFolder.files_node, putFile_names, if_pos hany]
  · rw [VFolder.files_node, VFolder.files_node]
    have hnames := putFile_names (some "x.txt".toList) "world".toList
      (putFile (some "x.txt".toList) "hello".toList s.root.files)
    rw [if_pos hany] at hnames
    have := congrArg List.length hnames
    simpa using this

/-! ## C10 — error atomicity of the store -/

/-- C10: confirmed.  Every `throw` in the store's operations happens
before any mutation: an operation that raises leaves the in-memory state
exactly as it was, and since `save()` is only reached at the end of the
success path, the persisted copy is untouched as well. -/
theorem vfs_error_atomicity :
    (∀ op s e s', applyOp op s = .thrown e s' → s' = s) ∧
    (∀ op p e, (runPersisted op p).2 = some e →
       (runPersisted op p).1.mem = p.mem ∧
       (runPersisted op p).1.disk = p.disk) := by
  have hthrown : ∀ op s e s', applyOp op s = .thrown e s' → s' = s := by
    intro op s e s' h
    cases op with
    | cd path =>
        simp only [applyOp] at h
        unfold changeDirectory at h
        split at h
        · injection h with h1 h2
          exact h2.symm
        · cases h
    | mkdirOp nm =>
        simp only [applyOp] at h
        unfold mkdir at h
        split at h
        · injection h with h1 h2
          exact h2.symm
        · split at h
          · injection h with h1 h2
            exact h2.symm
          · split at h
            · injection h with h1 h2
              exact h2.symm
            · cases h
    | rmdirOp nm =>
        simp only [applyOp] at h
        unfold rmdir at h
        split at h
        · injection h with h1 h2
          exact h2.symm
        · split at h
          · injection h with h1 h2
            exact h2.symm
          · split at h
            · injection h with h1 h2
              exact h2.symm
            · cases h
    | write path content =>
        simp only [applyOp] at h
        unfold writeFile at h
        split at h
        · injection h with h1 h2
          exact h2.symm
        · cases h
    | unlinkOp path =>
        simp only [applyOp] at h
        unfold unlink at h
        split at h
        · injection h with h1 h2
          exact h2.symm
        · split at h
          · injection h with h1 h2
            exact h2.symm
          · cases h
    | read path =>
        simp only [applyOp] at h
        split at h
        · cases h
        · injection h with h1 h2
          exact h2.symm
  refine ⟨hthrown, ?_⟩
  intro op p e h
  cases op with
  | read path =>
      simp only [runPersisted] at h ⊢
      split at h <;> simp_all
  | cd path =>
      simp only [runPersisted] at h ⊢
      split at h
      · simp_all
      · rename_i e' s' happ
        have := hthrown _ _ _ _ happ
        subst this
        simp_all
  | mkdirOp nm =>
      simp only [runPersisted] at h ⊢
      split at h
      · simp_all
      · rename_i e' s' happ
        have := hthrown _ _ _ _ happ
        subst this
        simp_all
  | rmdirOp nm =>
      simp only [runPersisted] at h ⊢
      split at h
      · simp_all
      · rename_i e' s' happ
        have := hthrown _ _ _ _ happ
        subst this
        simp_all
  | write path content =>
      simp only [runPersisted] at h ⊢
      split at h
      · simp_all
      · rename_i e' s' happ
        have := hthrown _ _ _ _ happ
        subst this
        simp_all
  | unlinkOp path =>
      simp only [runPersisted] at h ⊢
      split at h
      · simp_all
      · rename_i e' s' happ
        have := hthrown _ _ _ _ happ
        subst this
        simp_all

/-- C10 witness: `rmdir` of a missing folder on the default persisted
store raises `NotFound` and changes neither the in-memory state nor the
persisted copy. -/
theorem vfs_error_atomicity_witness :
    applyOp (.rmdirOp "a".toList) defaultVfsState =
      .thrown .notFound defaultVfsState ∧
    (match applyOp (.rmdirOp "a".toList) defaultVfsState with
      | .thrown _ s' => s'
      | .saved s' => s') = defaultVfsState := by
  constructor
  · rfl
  · exact vfs_error_atomicity.1 (.rmdirOp "a".toList) defaultVfsState
      .notFound defaultVfsState rfl

/-! ## C8 — alias expansion terminates on cycles -/

/-- C8: confirmed.  `expandAliases` always computes a bounded iterate of
the one-step expansion — at most `maxDepth = 5` steps, stopping silently
(no error value exists in its type) — and on the cyclic table
`{a: "b", b: "a"}` the result is the command reached when the visited
set detects the cycle, with the arguments untouched. -/
theorem expandAliases_bounded :
    (∀ al c a, ∃ n, n ≤ 5 ∧
      expandAliases al c a = (aliasStep al)^[n] (c, a)) ∧
    (∀ a, expandAliases [("a".toList, "b".toList), ("b".toList, "a".toList)]
      "a".toList a = ("a".toList, a)) := by
  constructor
  · intro al c a
    suffices h : ∀ fuel seen c a, ∃ n, n ≤ fuel ∧
        expandAliasesLoop al fuel seen c a = (aliasStep al)^[n] (c, a) from
      h 5 [] c a
    intro fuel
    induction fuel with
    | zero =>
        intro seen c a
        exact ⟨0, le_rfl, rfl⟩
    | succ fuel ih =>
        intro seen c a
        unfold expandAliasesLoop
        by_cases hs : c ∈ seen
        · rw [if_pos hs]
          exact ⟨0, Nat.zero_le _, rfl⟩
        · rw [if_neg hs]
          cases ho : expandAliasesOnce al c a with
          | none =>
              refine ⟨0, Nat.zero_le _, ?_⟩
              rfl
          | some p =>
              obtain ⟨n, hn, he⟩ := ih (c :: seen) p.1 p.2
              refine ⟨n + 1, Nat.succ_le_succ hn, ?_⟩
              rw [Function.iterate_succ_apply]
              have hstep : aliasStep al (c, a) = p := by
                unfold aliasStep
                rw [ho]
                rfl
              rw [hstep]
              exact he
  · intro a
    rfl

/-! ## C3 — the PATH fallback -/

/-- Whether one `env.PATH` entry yields the script: it must be a string,
start with `/`, list without throwing, and contain the file name. -/
def entryHits (s : VfsState) (fileName : List Char) : JsEntry → Bool
  | .other => false
  | .jstr d =>
      decide (d.headD ' ' = '/') &&
      (match list d s with
       | .error _ => false
       | .ok fd => fd.2.contains (some fileName))

/-- The PATH loop returns the join of the *first* entry that hits —
`List.find?` — skipping non-strings, non-absolute entries and unlistable
directories silently. -/
lemma searchPath_eq_find (s : VfsState) (fileName : List Char) :
    ∀ dirs, searchPath s fileName dirs =
      match dirs.find? (entryHits s fileName) with
      | some (.jstr d) => some (joinVfsPath d fileName)
      | _ => none := by
  intro dirs
  induction dirs with
  | nil => rfl
  | cons e rest ih =>
      cases e with
      | other =>
          show searchPath s fileName rest = _
          rw [List.find?_cons_of_neg _ (by simp [entryHits])]
          exact ih
      | jstr d =>
          unfold searchPath
          by_cases hd : d.headD ' ' = '/'
          · rw [if_neg (by simpa using hd)]
            cases hl : list d s with
            | error err =>
                rw [List.find?_cons_of_neg _ (by simp [entryHits, hl])]
                exact ih
            | ok fd =>
                obtain ⟨fnames, files⟩ := fd
                show (if files.contains (some fileName) = true then
                    some (joinVfsPath d fileName)
                  else searchPath s fileName rest) = _
                by_cases hc : files.contains (some fileName) = true
                · rw [if_pos hc]
                  rw [List.find?_cons_of_pos _ (by
                    simp only [entryHits, hl]
                    simp only [List.headD_eq_head?_getD] at hd
                    simp [hd, hc]
                    simpa using hc)]
                · rw [if_neg hc]
                  rw [List.find?_cons_of_neg _ (by
                    simp only [entryHits, hl]
                    simp
                    intro hhd
                    simpa using hc)]
                  exact ih
          · rw [if_pos (by simpa using hd)]
            rw [List.find?_cons_of_neg _ (by
              simp only [entryHits]
              simp only [List.headD_eq_head?_getD] at hd
              simp [hd])]
            exact ih

/-- C3 counterexample: the claim is false as stated.  With
`ALIAS = {s: "sample"}` and `/bin/sample.js` on PATH, typing `s` runs
the script with `"sample"` — the post-alias-expansion token — as its
self-reported invocation name, not the original pre-alias token `"s"`
the claim requires. -/
theorem path_script_invocation_name_counterexample :
    mainLoopResolve ["cd".toList]
      { PATH := [.jstr "/bin".toList]
        ALIAS := [("s".toList, "sample".toList)] }
      { root := .node ['/'] [.node "bin".toList []
          [{ name := some "sample.js".toList, content := [] }]] []
        cwdParts := [] }
      "s".toList =
      .pathScript "/bin/sample.js".toList [] "sample".toList ∧
    (∀ scriptPath, mainLoopResolve ["cd".toList]
      { PATH := [.jstr "/bin".toList]
        ALIAS := [("s".toList, "sample".toList)] }
      { root := .node ['/'] [.node "bin".toList []
          [{ name := some "sample.js".toList, content := [] }]] []
        cwdParts := [] }
      "s".toList ≠ .pathScript scriptPath [] "s".toList) := by
  refine ⟨rfl, ?_⟩
  intro scriptPath h
  rw [show mainLoopResolve ["cd".toList]
      { PATH := [.jstr "/bin".toList]
        ALIAS := [("s".toList, "sample".toList)] }
      { root := .node ['/'] [.node "bin".toList []
          [{ name := some "sample.js".toList, content := [] }]] []
        cwdParts := [] }
      "s".toList =
      .pathScript "/bin/sample.js".toList [] "sample".toList from rfl] at h
  injection h with h1 h2 h3
  cases h3

/-- C3 as amended: in lenient dispatch, when the (post-alias) command is
not a `.jsh` or `./….js` invocation and no registered module handles it,
the dispatcher searches `Env.PATH` in order for `<command>.js`; the
first directory that is an absolute-path string, lists successfully and
contains the file wins (all other entries are skipped silently), and the
resolved script's self-reported invocation name is the
*post-alias-expansion* command token. -/
theorem path_fallback_first_match_post_alias :
    (∀ builtins env s input c args p,
       expandAliases env.ALIAS (parseCommandLine (jsTrim input)).command
         (parseCommandLine (jsTrim input)).args = (c, args) →
       jsTrim input ≠ [] →
       ("./".toList.isPrefixOf c && ".jsh".toList.isSuffixOf c) = false →
       handledByModules builtins c = false →
       resolveScriptOnPath s env c = some p →
       mainLoopResolve builtins env s input = .pathScript p args c) ∧
    (∀ s env c p, resolveScriptOnPath s env c = some p →
       c ≠ [] ∧ ¬c.contains '/' = true ∧
       ∃ fileName, fileName = (if ".js".toList.isSuffixOf c then c
           else c ++ ".js".toList) ∧
         ∃ d, env.PATH.find? (entryHits s fileName) = some (.jstr d) ∧
           p = joinVfsPath d fileName) := by
  constructor
  · intro builtins env s input c args p hexp htrim hjsh hmods hres
    have hcne : c ≠ [] := by
      intro hc
      rw [hc] at hres
      simp [resolveScriptOnPath] at hres
    unfold handledByModules at hmods
    rw [Bool.or_eq_false_iff] at hmods
    unfold mainLoopResolve
    rw [if_neg htrim, hexp]
    unfold mainLoopDispatch
    rw [if_neg (by rw [hjsh]; simp), if_neg (by rw [hmods.1]; simp),
      if_neg (by rw [hmods.2]; simp), if_neg hcne, hres]
  · intro s env c p hres
    unfold resolveScriptOnPath at hres
    by_cases hc : c = []
    · rw [if_pos hc] at hres
      cases hres
    · rw [if_neg hc] at hres
      by_cases hsl : c.contains '/' = true
      · rw [if_pos hsl] at hres
        cases hres
      · rw [if_neg hsl] at hres
        refine ⟨hc, hsl, _, rfl, ?_⟩
        rw [searchPath_eq_find] at hres
        cases hfind : env.PATH.find?
            (entryHits s (if ".js".toList.isSuffixOf c then c
              else c ++ ".js".toList)) with
        | none => rw [hfind] at hres; cases hres
        | some entry =>
            rw [hfind] at hres
            cases entry with
            | other => cases hres
            | jstr d =>
                injection hres with hres
                exact ⟨d, rfl, hres.symm⟩

/-! ## C9 — command-completion sessions -/

lemma lexLe_trans : ∀ a b c : List Char,
    lexLe a b = true → lexLe b c = true → lexLe a c = true := by
  intro a
  induction a with
  | nil => intro b c _ _; rfl
  | cons x xs ih =>
      intro b c h1 h2
      cases b with
      | nil => simp [lexLe] at h1
      | cons y ys =>
          cases c with
          | nil => simp [lexLe] at h2
          | cons z zs =>
              unfold lexLe at h1 h2 ⊢
              by_cases hxy : x = y
              · subst hxy
                rw [if_pos rfl] at h1
                by_cases hxz : x = z
                · subst hxz
                  rw [if_pos rfl] at h2 ⊢
                  exact ih ys zs h1 h2
                · rw [if_neg hxz] at h2 ⊢
                  exact h2
              · rw [if_neg hxy] at h1
                simp only [decide_eq_true_eq] at h1
                by_cases hyz : y = z
                · subst hyz
                  rw [if_neg hxy]
                  simpa using h1
                · rw [if_neg hyz] at h2
                  simp only [decide_eq_true_eq] at h2
                  have hxz : x < z := lt_trans h1 h2
                  rw [if_neg (ne_of_lt hxz)]
                  simpa using hxz

lemma lexLe_total : ∀ a b : List Char, (lexLe a b || lexLe b a) = true := by
  intro a
  induction a with
  | nil => intro b; rfl
  | cons x xs ih =>
      intro b
      cases b with
      | nil => rfl
      | cons y ys =>
          unfold lexLe
          by_cases hxy : x = y
          · subst hxy
            rw [if_pos rfl, if_pos rfl]
            exact ih ys
          · rw [if_neg hxy, if_neg (Ne.symm hxy)]
            rcases lt_or_gt_of_ne hxy with h | h
            · simp [h]
            · simp [h]

lemma mem_insertSorted (x : List Char) :
    ∀ l c, c ∈ insertSorted x l → c = x ∨ c ∈ l := by
  intro l
  induction l with
  | nil => intro c hc; simpa [insertSorted] using hc
  | cons y ys ih =>
      intro c hc
      unfold insertSorted at hc
      split at hc
      · rcases List.mem_cons.1 hc with h | h
        · exact Or.inl h
        · exact Or.inr h
      · rcases List.mem_cons.1 hc with h | h
        · exact Or.inr (by simp [h])
        · rcases ih c h with h' | h'
          · exact Or.inl h'
          · exact Or.inr (by simp [h'])

lemma pairwise_insertSorted (x : List Char) :
    ∀ l, List.Pairwise (fun a b => lexLe a b = true) l →
      List.Pairwise (fun a b => lexLe a b = true) (insertSorted x l) := by
  intro l
  induction l with
  | nil => intro _; simp [insertSorted]
  | cons y ys ih =>
      intro hp
      rw [List.pairwise_cons] at hp
      unfold insertSorted
      split
      · rename_i hxy
        rw [List.pairwise_cons]
        refine ⟨?_, List.pairwise_cons.2 hp⟩
        intro z hz
        rcases List.mem_cons.1 hz with h | h
        · exact h ▸ hxy
        · exact lexLe_trans x y z hxy (hp.1 z h)
      · rename_i hxy
        have hyx : lexLe y x = true := by
          have := lexLe_total x y
          rcases Bool.or_eq_true_iff.1 this with h | h
          · exact absurd h hxy
          · exact h
        rw [List.pairwise_cons]
        refine ⟨?_, ih hp.2⟩
        intro z hz
        rcases mem_insertSorted x ys z hz with h | h
        · exact h ▸ hyx
        · exact hp.1 z h

lemma pairwise_jsSortStrings (l : List (List Char)) :
    List.Pairwise (fun a b => lexLe a b = true) (jsSortStrings l) := by
  induction l with
  | nil => simp [jsSortStrings]
  | cons x xs ih => exact pairwise_insertSorted x _ ih

/-- C9: confirmed.  With several candidates matching the current word,
`_startCommandCompletionSession` proposes the first element of the
lexicographically sorted candidate list followed by a space and opens a
session on that list (which is sorted); a repeated Tab whose input
equals the last proposal advances the index circularly — backward on a
modified request — and proposes that candidate; a Tab whose input
differs from the last proposal behaves exactly as if no session existed
(the old session is replaced); and an ordinary printable keystroke
clears the session. -/
theorem command_completion_cycling :
    (∀ commands pathCmds word,
       2 ≤ ((jsSortStrings ((commands ++ pathCmds).eraseDups)).filter
         (fun cmd => word.isPrefixOf cmd)).length →
       startCommandCompletionSession commands pathCmds word =
         (some (.command
            ((jsSortStrings ((commands ++ pathCmds).eraseDups)).filter
              (fun cmd => word.isPrefixOf cmd)) 0
            (((jsSortStrings ((commands ++ pathCmds).eraseDups)).filter
              (fun cmd => word.isPrefixOf cmd)).headD [] ++ [' '])),
          ((jsSortStrings ((commands ++ pathCmds).eraseDups)).filter
            (fun cmd => word.isPrefixOf cmd)).headD [] ++ [' ']) ∧
       List.Pairwise (fun a b => lexLe a b = true)
         ((jsSortStrings ((commands ++ pathCmds).eraseDups)).filter
           (fun cmd => word.isPrefixOf cmd))) ∧
    (∀ items index last back, 1 < items.length →
       cycleCompletionSession (some (.command items index last)) last back =
         some (.command items (cycleIdx index back items.length)
            (items.getD (cycleIdx index back items.length) [] ++ [' ']),
          items.getD (cycleIdx index back items.length) [] ++ [' '])) ∧
    (∀ commands pathCmds items index last input back, input ≠ last →
       tabCommandPosition commands pathCmds
         (some (.command items index last)) input back =
       tabCommandPosition commands pathCmds none input back) ∧
    (∀ sess, printableKeySession sess = none) := by
  refine ⟨?_, ?_, ?_, fun _ => rfl⟩
  · intro commands pathCmds word hlen
    constructor
    · unfold startCommandCompletionSession
      rw [if_neg (by omega), if_pos (by omega)]
    · refine List.Pairwise.sublist (List.filter_sublist _) ?_
      exact pairwise_jsSortStrings ((commands ++ pathCmds).eraseDups)
  · intro items index last back hlen
    show cycleCommandSession items index last last back = _
    unfold cycleCommandSession
    rw [if_neg (by simp; omega)]
  · intro commands pathCmds items index last input back hne
    unfold tabCommandPosition
    rw [show cycleCompletionSession (some (.command items index last))
        input back = none by
      show cycleCommandSession items index last input back = none
      unfold cycleCommandSession
      rw [if_pos (by simp [hne])]]
    rw [show cycleCompletionSession none input back = none from rfl]

/-- C9 witness: the spec's `ls`/`lsblk` scenario — input `l` proposes
`ls `, a repeated Tab against the unchanged proposal cycles to `lsblk `,
and a backward cycle from the first candidate wraps to the last. -/
theorem command_completion_cycling_witness :
    startCommandCompletionSession ["lsblk".toList, "ls".toList] [] "l".toList =
      (some (.command ["ls".toList, "lsblk".toList] 0 "ls ".toList),
        "ls ".toList) ∧
    List.Pairwise (fun a b => lexLe a b = true)
      ["ls".toList, "lsblk".toList] ∧
    cycleCompletionSession
      (some (.command ["ls".toList, "lsblk".toList] 0 "ls ".toList))
      "ls ".toList false =
      some (.command ["ls".toList, "lsblk".toList] 1 "lsblk ".toList,
        "lsblk ".toList) ∧
    tabCommandPosition ["lsblk".toList, "ls".toList] []
      (some (.command ["ls".toList, "lsblk".toList] 0 "ls ".toList))
      "lx".toList false =
      tabCommandPosition ["lsblk".toList, "ls".toList] [] none
        "lx".toList false := by
  have h1 := (command_completion_cycling.1 ["lsblk".toList, "ls".toList] []
    "l".toList (by decide))
  have h2 := command_completion_cycling.2.1 ["ls".toList, "lsblk".toList]
    0 "ls ".toList false (by decide)
  have h3 := command_completion_cycling.2.2.1 ["lsblk".toList, "ls".toList] []
    ["ls".toList, "lsblk".toList] 0 "ls ".toList "lx".toList false (by decide)
  refine ⟨?_, ?_, ?_, h3⟩
  · rw [h1.1]
    decide
  · have := h1.2
    revert this
    decide
  · rw [h2]
    decide

/-! ## C4 — command scripts stop at the first failing line -/

/-- Computation rule for `runJshLines` on a cons cell. -/
lemma runJshLines_cons (modules : List HandlerFn) (line : List Char)
    (rest : List (List Char)) (i : Nat) (s : VfsState) :
    runJshLines modules (line :: rest) i s =
      (if (parseSimpleCommandLine line).command = [] then
        runJshLines modules rest (i + 1) s
      else if !(dispatchStrict modules (parseSimpleCommandLine line).command
          (parseSimpleCommandLine line).args s).2.ok then
        .aborted (i + 1) line (dispatchStrict modules
          (parseSimpleCommandLine line).command
          (parseSimpleCommandLine line).args s).1
      else if !(dispatchStrict modules (parseSimpleCommandLine line).command
          (parseSimpleCommandLine line).args s).2.shouldContinue then
        .exited (dispatchStrict modules (parseSimpleCommandLine line).command
          (parseSimpleCommandLine line).args s).1
      else runJshLines modules rest (i + 1) (dispatchStrict modules
          (parseSimpleCommandLine line).command
          (parseSimpleCommandLine line).args s).1) := rfl

/-- Running a command script decomposes over list append: the lines after
a prefix run only if the whole prefix completed. -/
lemma runJshLines_append (modules : List HandlerFn) :
    ∀ xs ys i s, runJshLines modules (xs ++ ys) i s =
      match runJshLines modules xs i s with
      | .completed s₁ => runJshLines modules ys (i + xs.length) s₁
      | out => out := by
  intro xs
  induction xs with
  | nil =>
      intro ys i s
      simp [runJshLines]
  | cons line rest ih =>
      intro ys i s
      simp only [List.cons_append]
      have harith : i + 1 + rest.length = i + (line :: rest).length := by
        simp [List.length_cons]
        omega
      by_cases hcmd : (parseSimpleCommandLine line).command = []
      · have l1 : runJshLines modules (line :: (rest ++ ys)) i s =
            runJshLines modules (rest ++ ys) (i + 1) s := by
          rw [runJshLines_cons, if_pos hcmd]
        have l2 : runJshLines modules (line :: rest) i s =
            runJshLines modules rest (i + 1) s := by
          rw [runJshLines_cons, if_pos hcmd]
        rw [l1, l2, ih, harith]
      · by_cases hok : (dispatchStrict modules
            (parseSimpleCommandLine line).command
            (parseSimpleCommandLine line).args s).2.ok = true
        · by_cases hcont : (dispatchStrict modules
              (parseSimpleCommandLine line).command
              (parseSimpleCommandLine line).args s).2.shouldContinue = true
          · have l1 : runJshLines modules (line :: (rest ++ ys)) i s =
                runJshLines modules (rest ++ ys) (i + 1)
                  (dispatchStrict modules (parseSimpleCommandLine line).command
                    (parseSimpleCommandLine line).args s).1 := by
              rw [runJshLines_cons, if_neg hcmd,
                if_neg (by simp [hok]), if_neg (by simp [hcont])]
            have l2 : runJshLines modules (line :: rest) i s =
                runJshLines modules rest (i + 1)
                  (dispatchStrict modules (parseSimpleCommandLine line).command
                    (parseSimpleCommandLine line).args s).1 := by
              rw [runJshLines_cons, if_neg hcmd,
                if_neg (by simp [hok]), if_neg (by simp [hcont])]
            rw [l1, l2, ih, harith]
          · have l1 : runJshLines modules (line :: (rest ++ ys)) i s =
                .exited (dispatchStrict modules
                  (parseSimpleCommandLine line).command
                  (parseSimpleCommandLine line).args s).1 := by
              rw [runJshLines_cons, if_neg hcmd,
                if_neg (by simp [hok]), if_pos (by simp_all)]
            have l2 : runJshLines modules (line :: rest) i s =
                .exited (dispatchStrict modules
                  (parseSimpleCommandLine line).command
                  (parseSimpleCommandLine line).args s).1 := by
              rw [runJshLines_cons, if_neg hcmd,
                if_neg (by simp [hok]), if_pos (by simp_all)]
            rw [l1, l2]
        · have l1 : runJshLines modules (line :: (rest ++ ys)) i s =
              .aborted (i + 1) line (dispatchStrict modules
                (parseSimpleCommandLine line).command
                (parseSimpleCommandLine line).args s).1 := by
            rw [runJshLines_cons, if_neg hcmd, if_pos (by simp_all)]
          have l2 : runJshLines modules (line :: rest) i s =
              .aborted (i + 1) line (dispatchStrict modules
                (parseSimpleCommandLine line).command
                (parseSimpleCommandLine line).args s).1 := by
            rw [runJshLines_cons, if_neg hcmd, if_pos (by simp_all)]
          rw [l1, l2]

/-- C4: confirmed.  Strict per-line dispatch stops at the first line
whose strict dispatch reports `ok = false`: whatever lines follow, the
script aborts there, reporting the 1-based line number and the raw line
text, and no later line is executed (the outcome does not depend on
`rest`).  Concretely, the script `mkdir x` / `cd nowhere` / `mkdir y`
run with the `mkdir` and `cd` handlers from the default state creates
`x`, aborts at line 2 with the text `cd nowhere`, and never creates `y`.
(The `mkdir` handler is modelled from the spec; `programs/mkdir.js` is
not under `src/`.) -/
theorem jsh_strict_stops_at_first_failure :
    (∀ modules pre line rest s s₁,
       runJshLines modules pre 0 s = .completed s₁ →
       (parseSimpleCommandLine line).command ≠ [] →
       (dispatchStrict modules (parseSimpleCommandLine line).command
         (parseSimpleCommandLine line).args s₁).2.ok = false →
       runJshLines modules (pre ++ line :: rest) 0 s =
         .aborted (pre.length + 1) line
           (dispatchStrict modules (parseSimpleCommandLine line).command
             (parseSimpleCommandLine line).args s₁).1) ∧
    (∃ sf, runJshContent [executeMkdirCommand, executeCdCommand]
        "mkdir x\ncd nowhere\nmkdir y".toList defaultVfsState =
        .aborted 2 "cd nowhere".toList sf ∧
      sf.root.folders.map VFolder.name = ["x".toList] ∧
      sf.root.files = [] ∧ sf.cwdParts = []) := by
  constructor
  · intro modules pre line rest s s₁ hpre hcmd hfail
    rw [runJshLines_append modules pre (line :: rest) 0 s, hpre]
    show runJshLines modules (line :: rest) (0 + pre.length) s₁ = _
    unfold runJshLines
    rw [if_neg hcmd, if_pos (by simp [hfail])]
    have : 0 + pre.length + 1 = pre.length + 1 := by omega
    rw [this]
  · exact ⟨{ root := .node ['/'] [.node ['x'] [] []] [], cwdParts := [] },
      rfl, rfl, rfl, rfl⟩

/-- C4 witness: the generic stop-at-first-failure rule applied to the
concrete scenario (prefix `mkdir x`, failing line `cd nowhere`,
remaining line `mkdir y`). -/
theorem jsh_strict_stops_at_first_failure_witness :
    runJshLines [executeMkdirCommand, executeCdCommand]
      (["mkdir x".toList] ++ "cd nowhere".toList :: ["mkdir y".toList]) 0
      defaultVfsState =
      .aborted 2 "cd nowhere".toList
        (dispatchStrict [executeMkdirCommand, executeCdCommand]
          (parseSimpleCommandLine "cd nowhere".toList).command
          (parseSimpleCommandLine "cd nowhere".toList).args
          { root := .node ['/'] [.node ['x'] [] []] [], cwdParts := [] }).1 :=
  jsh_strict_stops_at_first_failure.1
    [executeMkdirCommand, executeCdCommand]
    ["mkdir x".toList] "cd nowhere".toList ["mkdir y".toList]
    defaultVfsState
    { root := .node ['/'] [.node ['x'] [] []] [], cwdParts := [] }
    rfl (by decide) rfl

/-- C3 witness: the amended fallback at the counterexample's inputs. -/
theorem path_fallback_first_match_post_alias_witness :
    mainLoopResolve ["cd".toList]
      { PATH := [.jstr "/bin".toList]
        ALIAS := [("s".toList, "sample".toList)] }
      { root := .node ['/'] [.node "bin".toList []
          [{ name := some "sample.js".toList, content := [] }]] []
        cwdParts := [] }
      "s".toList =
      .pathScript "/bin/sample.js".toList [] "sample".toList :=
  path_fallback_first_match_post_alias.1 ["cd".toList] _ _ "s".toList
    "sample".toList [] "/bin/sample.js".toList rfl (by decide) (by decide)
    (by decide) rfl

end JsShellProof
